import Mathlib

/-!
Verification development for the nfl-datamans-app repository.

Shallow embedding of the two mechanisms with actual invariants:
  * the in-process response cache of `src/api.py`
    (`_get_cache_key`, `_get_cached_df`, `_set_cached_df`, `clear_cache`,
    `cache_status`), and
  * the incremental loader of
    `src/airflow/dags/nfl_datamans_dbt_improved.py`
    (`load_raw_table_incremental`) together with the retry combinator of
    `src/utils/retry.py` (`retry_with_backoff`, `retry_on_db_error`).

Python dictionaries are modelled as insertion-ordered association lists
(matching CPython's guaranteed iteration order), wall-clock instants as
natural numbers of seconds, dataframes as a list of column names plus a
list of positional rows, and column names / cell values as lists of
Unicode code points / natural numbers respectively.
-/

/-! ## Response cache (`src/api.py`, lines 122-164 and 268-296) -/

/-- Cache key type: `(dataset, seasons_tuple, include_ngs, ngs_stat_type)`. -/
abbrev CKey : Type := String × List Nat × Bool × String

/-- Model of `_get_cache_key` (`src/api.py:131`):
`seasons_tuple = tuple(sorted(seasons)) if seasons else ()`.
Python's `sorted` (stable, ascending, duplicates preserved) is modelled by
`List.insertionSort`; a `None` or empty season list yields the empty tuple. -/
def getCacheKey (dataset : String) (seasons : Option (List Nat))
    (include_ngs : Bool) (ngs_stat_type : String) : CKey :=
  let seasons_tuple : List Nat :=
    match seasons with
    | some s => if s.isEmpty then [] else List.insertionSort (· ≤ ·) s
    | none => []
  (dataset, seasons_tuple, include_ngs, ngs_stat_type)

/-- One stored cache value: the pair `(df, timestamp)` of `_DATASET_CACHE`. -/
structure CacheEntry (V : Type) where
  df : V
  timestamp : Nat
  deriving DecidableEq, Repr

/-- The cache dictionary `_DATASET_CACHE`, an insertion-ordered map. -/
abbrev Cache (V : Type) := List (CKey × CacheEntry V)

/-- Dictionary lookup (`cache_key in _DATASET_CACHE` / `_DATASET_CACHE[k]`). -/
def lookupC {V : Type} (k : CKey) : Cache V → Option (CacheEntry V)
  | [] => none
  | e :: rest => if e.1 = k then some e.2 else lookupC k rest

/-- Dictionary deletion (`del _DATASET_CACHE[k]`); keys are unique in a
Python dict, so deleting the first occurrence models `del`. -/
def eraseKey {V : Type} (k : CKey) : Cache V → Cache V
  | [] => []
  | e :: rest => if e.1 = k then rest else e :: eraseKey k rest

/-- Dictionary assignment (`_DATASET_CACHE[k] = v`): replaces in place when
the key exists (CPython keeps the insertion position), appends otherwise. -/
def dictInsert {V : Type} (k : CKey) (v : CacheEntry V) : Cache V → Cache V
  | [] => [(k, v)]
  | e :: rest => if e.1 = k then (k, v) :: rest else e :: dictInsert k v rest

/-- `_CACHE_TTL_SECONDS = 300` (`src/api.py:128`). -/
def CACHE_TTL_SECONDS : Nat := 300

/-- `_CACHE_MAX_SIZE = 20` (`src/api.py:129`). -/
def CACHE_MAX_SIZE : Nat := 20

/-- Model of `_get_cached_df` (`src/api.py:136-147`): on a hit younger than
the TTL return the stored frame (a defensive copy — value-level equality
here; the aliasing aspect is modelled separately with an explicit store),
on a stale hit delete the entry and return `None`, on a miss return `None`. -/
def getCachedDf {V : Type} (now : Nat) (c : Cache V) (k : CKey) :
    Option V × Cache V :=
  match lookupC k c with
  | some e =>
    if now - e.timestamp < CACHE_TTL_SECONDS then (some e.df, c)
    else (none, eraseKey k c)
  | none => (none, c)

/-- The key selected by `min(_DATASET_CACHE.keys(), key=lambda k: _DATASET_CACHE[k][1])`
(`src/api.py:153`): the first key of minimal stored timestamp, in dict order. -/
def oldestKey? {V : Type} : Cache V → Option CKey
  | [] => none
  | e :: rest =>
    some ((rest.foldl
      (fun best x => if x.2.timestamp < best.2.timestamp then x else best) e).1)

/-- Model of `_set_cached_df` (`src/api.py:149-158`): if the cache holds at
least `_CACHE_MAX_SIZE` entries, delete the entry with the oldest timestamp,
then store `(df.copy(), time.time())` under the key. -/
def setCachedDf {V : Type} (now : Nat) (c : Cache V) (k : CKey) (v : V) :
    Cache V :=
  let c1 :=
    if CACHE_MAX_SIZE ≤ c.length then
      match oldestKey? c with
      | some ko => eraseKey ko c
      | none => c
    else c
  dictInsert k ⟨v, now⟩ c1

/-- Model of `clear_cache` (`src/api.py:160-164`). -/
def clearCache {V : Type} (_c : Cache V) : Cache V := []

/-! ### Basic dictionary lemmas -/

theorem lookupC_dictInsert_self {V : Type} (k : CKey) (v : CacheEntry V) :
    ∀ c : Cache V, lookupC k (dictInsert k v c) = some v := by
  intro c
  induction c with
  | nil => simp [dictInsert, lookupC]
  | cons e rest ih =>
    by_cases h : e.1 = k
    · simp [dictInsert, lookupC, h]
    · simp [dictInsert, lookupC, h, ih]

theorem lookupC_eq_none_of_not_mem {V : Type} (k : CKey) :
    ∀ c : Cache V, k ∉ c.map Prod.fst → lookupC k c = none := by
  intro c
  induction c with
  | nil => intro _; rfl
  | cons e rest ih =>
    intro hk
    simp only [List.map_cons, List.mem_cons, not_or] at hk
    have h1 : e.1 ≠ k := fun hc => hk.1 hc.symm
    simp only [lookupC, if_neg h1]
    exact ih hk.2

theorem lookupC_eraseKey_self {V : Type} (k : CKey) :
    ∀ c : Cache V, (c.map Prod.fst).Nodup →
      lookupC k (eraseKey k c) = none := by
  intro c
  induction c with
  | nil => intro _; rfl
  | cons e rest ih =>
    intro hnd
    simp only [List.map_cons, List.nodup_cons] at hnd
    by_cases h : e.1 = k
    · simp only [eraseKey, if_pos h]
      refine lookupC_eq_none_of_not_mem k rest ?_
      rw [← h]
      exact hnd.1
    · simp only [eraseKey, if_neg h, lookupC, if_neg h]
      exact ih hnd.2

theorem lookupC_eraseKey_ne {V : Type} (k k' : CKey) (hne : k' ≠ k) :
    ∀ c : Cache V, lookupC k' (eraseKey k c) = lookupC k' c := by
  intro c
  induction c with
  | nil => rfl
  | cons e rest ih =>
    by_cases h : e.1 = k
    · have h2 : e.1 ≠ k' := by rw [h]; exact fun hc => hne hc.symm
      simp only [eraseKey, if_pos h, lookupC, if_neg h2]
    · by_cases h2 : e.1 = k'
      · simp only [eraseKey, if_neg h, lookupC, if_pos h2]
      · simp only [eraseKey, if_neg h, lookupC, if_neg h2]
        exact ih

theorem lookupC_setCachedDf_self {V : Type} (now : Nat) (c : Cache V)
    (k : CKey) (v : V) :
    lookupC k (setCachedDf now c k v) = some ⟨v, now⟩ := by
  unfold setCachedDf
  exact lookupC_dictInsert_self k ⟨v, now⟩ _

/-! ### Claim C1 -/

/-- C1. Cache TTL round-trip: `set(k, v)` followed by `get(k)` strictly
before the 300-second TTL has elapsed returns a value equal to `v` (and
leaves the cache unchanged); a `get(k)` at or past the TTL returns absent
and removes exactly that entry; a `get` on an absent key returns absent
with no side effect. -/
theorem cache_ttl_roundtrip {V : Type} (c : Cache V) (k : CKey) (v : V)
    (t now now' : Nat) (hfresh : now - t < CACHE_TTL_SECONDS)
    (hnd : (c.map Prod.fst).Nodup) :
    (getCachedDf now (setCachedDf t c k v) k = (some v, setCachedDf t c k v))
    ∧ (∀ e : CacheEntry V, lookupC k c = some e →
        CACHE_TTL_SECONDS ≤ now' - e.timestamp →
          getCachedDf now' c k = (none, eraseKey k c)
          ∧ lookupC k (eraseKey k c) = none
          ∧ ∀ k' : CKey, k' ≠ k →
              lookupC k' (eraseKey k c) = lookupC k' c)
    ∧ (lookupC k c = none → getCachedDf now' c k = (none, c)) := by
  refine ⟨?_, ?_, ?_⟩
  · unfold getCachedDf
    rw [lookupC_setCachedDf_self]
    simp [hfresh]
  · intro e he hstale
    have hlt : ¬ (now' - e.timestamp < CACHE_TTL_SECONDS) := not_lt.mpr hstale
    refine ⟨?_, lookupC_eraseKey_self k c hnd, fun k' h => lookupC_eraseKey_ne k k' h c⟩
    unfold getCachedDf
    rw [he]
    simp [hlt]
  · intro hmiss
    unfold getCachedDf
    rw [hmiss]

/-- Witness for C1 at a concrete cache state. -/
theorem cache_ttl_roundtrip_witness :
    getCachedDf 250 (setCachedDf 10 ([] : Cache Nat)
        ("player_stats", [2024], false, "receiving") 37)
        ("player_stats", [2024], false, "receiving")
      = (some 37, setCachedDf 10 ([] : Cache Nat)
          ("player_stats", [2024], false, "receiving") 37)
    ∧ getCachedDf 400
        [(("player_stats", [2024], false, "receiving"),
          (⟨37, 0⟩ : CacheEntry Nat))]
        ("player_stats", [2024], false, "receiving")
      = (none, eraseKey ("player_stats", [2024], false, "receiving")
          [(("player_stats", [2024], false, "receiving"), ⟨37, 0⟩)])
    ∧ lookupC ("player_stats", [2024], false, "receiving")
        (eraseKey ("player_stats", [2024], false, "receiving")
          [(("player_stats", [2024], false, "receiving"),
            (⟨37, 0⟩ : CacheEntry Nat))]) = none
    ∧ getCachedDf 400 ([] : Cache Nat)
        ("player_stats", [2024], false, "receiving") = (none, []) :=
  ⟨(cache_ttl_roundtrip [] ("player_stats", [2024], false, "receiving")
      37 10 250 400 (by decide) (by decide)).1,
   ((cache_ttl_roundtrip
        [(("player_stats", [2024], false, "receiving"), ⟨37, 0⟩)]
        ("player_stats", [2024], false, "receiving")
        37 10 250 400 (by decide) (by decide)).2.1 ⟨37, 0⟩ rfl
      (by decide)).1,
   ((cache_ttl_roundtrip
        [(("player_stats", [2024], false, "receiving"), ⟨37, 0⟩)]
        ("player_stats", [2024], false, "receiving")
        37 10 250 400 (by decide) (by decide)).2.1 ⟨37, 0⟩ rfl
      (by decide)).2.1,
   (cache_ttl_roundtrip [] ("player_stats", [2024], false, "receiving")
      37 10 250 400 (by decide) (by decide)).2.2 rfl⟩

/-! ### Claim C7 -/

/-- C7 counterexample: `sorted` does not deduplicate, so a season list with
a duplicated value maps to a different cache key than its deduplication,
refuting "the computed cache key's season component is the sorted list of
distinct seasons". -/
theorem cache_key_dedup_counterexample :
    getCacheKey "player_stats" (some [2023, 2023]) false "receiving"
      ≠ getCacheKey "player_stats" (some [2023]) false "receiving" := by
  decide

/-- C7 amended: the cache key's season component is the sorted season list
with duplicates preserved, so two requests whose season lists are
permutations of each other (in particular: differ only in ordering) map to
the same cache key; lists differing in duplicated values do not. -/
theorem cache_key_perm_invariant (d : String) (b : Bool) (ty : String)
    (s₁ s₂ : List Nat) (hperm : s₁.Perm s₂) :
    getCacheKey d (some s₁) b ty = getCacheKey d (some s₂) b ty := by
  unfold getCacheKey
  have hlen : s₁.length = s₂.length := hperm.length_eq
  by_cases h1 : s₁.isEmpty
  · have h2 : s₂.isEmpty := by
      rw [List.isEmpty_iff_length_eq_zero] at h1 ⊢
      omega
    simp [h1, h2]
  · have h2 : ¬ s₂.isEmpty := by
      rw [List.isEmpty_iff_length_eq_zero] at h1 ⊢
      omega
    simp only [h1, h2, if_neg, Bool.false_eq_true]
    have hsorteq : List.insertionSort (· ≤ ·) s₁ = List.insertionSort (· ≤ ·) s₂ := by
      refine List.eq_of_perm_of_sorted ?_
        (List.sorted_insertionSort _ s₁) (List.sorted_insertionSort _ s₂)
      exact (List.perm_insertionSort _ s₁).trans
        (hperm.trans (List.perm_insertionSort _ s₂).symm)
    rw [hsorteq]

/-- Witness for the amended C7 at a concrete permutation. -/
theorem cache_key_perm_invariant_witness :
    getCacheKey "schedules" (some [2025, 2023, 2024]) true "rushing"
      = getCacheKey "schedules" (some [2023, 2024, 2025]) true "rushing" :=
  cache_key_perm_invariant "schedules" true "rushing"
    [2025, 2023, 2024] [2023, 2024, 2025] (by decide)

/-! ### Claim C2: capacity invariant and eviction order -/

/-- One external cache operation (the API surface of the cache layer). -/
inductive CacheOp (V : Type) where
  | get (k : CKey) (now : Nat)
  | set (k : CKey) (v : V) (now : Nat)
  | clear

/-- State effect of one operation on the cache dictionary. -/
def applyOp {V : Type} (c : Cache V) : CacheOp V → Cache V
  | .get k now => (getCachedDf now c k).2
  | .set k v now => setCachedDf now c k v
  | .clear => clearCache c

/-- State effect of a sequence of operations, applied left to right. -/
def applyOps {V : Type} (ops : List (CacheOp V)) (c : Cache V) : Cache V :=
  ops.foldl applyOp c

/-- The two structural invariants of the cache dictionary. -/
def CacheInv {V : Type} (c : Cache V) : Prop :=
  c.length ≤ CACHE_MAX_SIZE ∧ (c.map Prod.fst).Nodup

theorem keys_eraseKey_sublist {V : Type} (k : CKey) :
    ∀ c : Cache V, ((eraseKey k c).map Prod.fst).Sublist (c.map Prod.fst) := by
  intro c
  induction c with
  | nil => exact .refl _
  | cons e rest ih =>
    by_cases h : e.1 = k
    · simp only [eraseKey, if_pos h, List.map_cons]
      exact .cons _ (.refl _)
    · simp only [eraseKey, if_neg h, List.map_cons]
      exact .cons₂ _ ih

theorem length_eraseKey_of_mem {V : Type} (k : CKey) :
    ∀ c : Cache V, k ∈ c.map Prod.fst →
      (eraseKey k c).length + 1 = c.length := by
  intro c
  induction c with
  | nil => intro h; simp at h
  | cons e rest ih =>
    intro hmem
    by_cases h : e.1 = k
    · simp only [eraseKey, if_pos h, List.length_cons]
    · have hmem' : k ∈ rest.map Prod.fst := by
        simp only [List.map_cons, List.mem_cons] at hmem
        rcases hmem with h1 | h1
        · exact absurd h1.symm h
        · exact h1
      simp only [eraseKey, if_neg h, List.length_cons, ih hmem']

theorem dictInsert_of_not_mem {V : Type} (k : CKey) (v : CacheEntry V) :
    ∀ c : Cache V, k ∉ c.map Prod.fst →
      dictInsert k v c = c ++ [(k, v)] := by
  intro c
  induction c with
  | nil => intro _; rfl
  | cons e rest ih =>
    intro hk
    simp only [List.map_cons, List.mem_cons, not_or] at hk
    have h1 : e.1 ≠ k := fun hc => hk.1 hc.symm
    simp only [dictInsert, if_neg h1, List.cons_append, ih hk.2]

theorem keys_dictInsert_of_mem {V : Type} (k : CKey) (v : CacheEntry V) :
    ∀ c : Cache V, k ∈ c.map Prod.fst →
      (dictInsert k v c).map Prod.fst = c.map Prod.fst := by
  intro c
  induction c with
  | nil => intro h; simp at h
  | cons e rest ih =>
    intro hmem
    by_cases h : e.1 = k
    · simp [dictInsert, h]
    · have hmem' : k ∈ rest.map Prod.fst := by
        simp only [List.map_cons, List.mem_cons] at hmem
        rcases hmem with h1 | h1
        · exact absurd h1.symm h
        · exact h1
      simp only [dictInsert, if_neg h, List.map_cons, ih hmem']

theorem dictInsert_inv {V : Type} (k : CKey) (v : CacheEntry V) (c : Cache V)
    (hlen : c.length + 1 ≤ CACHE_MAX_SIZE ∨
      (c.length ≤ CACHE_MAX_SIZE ∧ k ∈ c.map Prod.fst))
    (hnd : (c.map Prod.fst).Nodup) : CacheInv (dictInsert k v c) := by
  by_cases hmem : k ∈ c.map Prod.fst
  · constructor
    · have := congrArg List.length (keys_dictInsert_of_mem k v c hmem)
      simp only [List.length_map] at this
      rcases hlen with h | h
      · omega
      · omega
    · rw [keys_dictInsert_of_mem k v c hmem]; exact hnd
  · rw [dictInsert_of_not_mem k v c hmem]
    constructor
    · rcases hlen with h | h
      · simp only [List.length_append, List.length_singleton]; omega
      · exact absurd h.2 hmem
    · simp only [List.map_append, List.map_singleton]
      rw [List.nodup_append]
      exact ⟨hnd, List.nodup_singleton _, by
        intro a ha hb
        simp only [List.mem_singleton] at hb
        subst hb
        exact hmem ha⟩

theorem foldl_pick_mem {V : Type} :
    ∀ (rest : List (CKey × CacheEntry V)) (b : CKey × CacheEntry V),
      rest.foldl (fun best x =>
        if x.2.timestamp < best.2.timestamp then x else best) b ∈ b :: rest := by
  intro rest
  induction rest with
  | nil => intro b; exact .head _
  | cons x xs ih =>
    intro b
    simp only [List.foldl_cons]
    by_cases h : x.2.timestamp < b.2.timestamp
    · rw [if_pos h]
      exact List.mem_cons_of_mem _ (ih x)
    · rw [if_neg h]
      rcases List.mem_cons.mp (ih b) with h1 | h1
      · rw [h1]
        exact List.mem_cons_self _ _
      · exact List.mem_cons_of_mem _ (List.mem_cons_of_mem _ h1)

theorem oldestKey?_mem {V : Type} (c : Cache V) (ko : CKey)
    (h : oldestKey? c = some ko) : ko ∈ c.map Prod.fst := by
  match c with
  | [] => simp [oldestKey?] at h
  | e :: rest =>
    simp only [oldestKey?, Option.some.injEq] at h
    have := foldl_pick_mem rest e
    subst h
    exact List.mem_map_of_mem Prod.fst this

theorem setCachedDf_inv {V : Type} (now : Nat) (c : Cache V) (k : CKey)
    (v : V) (h : CacheInv c) : CacheInv (setCachedDf now c k v) := by
  obtain ⟨hlen, hnd⟩ := h
  unfold setCachedDf
  by_cases hcap : CACHE_MAX_SIZE ≤ c.length
  · have hne : c ≠ [] := by
      intro hc
      rw [hc] at hcap
      simp [CACHE_MAX_SIZE] at hcap
    obtain ⟨e, rest, rfl⟩ := List.exists_cons_of_ne_nil hne
    have hko : ∃ ko, oldestKey? (e :: rest) = some ko := ⟨_, rfl⟩
    obtain ⟨ko, hko⟩ := hko
    simp only [if_pos hcap, hko]
    have hmem := oldestKey?_mem _ _ hko
    have hlen' := length_eraseKey_of_mem ko _ hmem
    refine dictInsert_inv _ _ _ (Or.inl ?_) ?_
    · omega
    · exact hnd.sublist (keys_eraseKey_sublist ko _)
  · simp only [if_neg hcap]
    exact dictInsert_inv _ _ _ (Or.inl (by omega)) hnd

theorem getCachedDf_inv {V : Type} (now : Nat) (c : Cache V) (k : CKey)
    (h : CacheInv c) : CacheInv (getCachedDf now c k).2 := by
  obtain ⟨hlen, hnd⟩ := h
  unfold getCachedDf
  match hl : lookupC k c with
  | some e =>
    by_cases hf : now - e.timestamp < CACHE_TTL_SECONDS
    · simp only [hf, if_pos]
      exact ⟨hlen, hnd⟩
    · simp only [hf, if_neg, ite_false]
      constructor
      · have := (keys_eraseKey_sublist k c).length_le
        simp only [List.length_map] at this
        omega
      · exact hnd.sublist (keys_eraseKey_sublist k c)
  | none => exact ⟨hlen, hnd⟩

theorem applyOps_inv {V : Type} (ops : List (CacheOp V)) :
    ∀ c : Cache V, CacheInv c → CacheInv (applyOps ops c) := by
  induction ops with
  | nil => intro c h; exact h
  | cons op rest ih =>
    intro c h
    simp only [applyOps, List.foldl_cons]
    refine ih _ ?_
    match op with
    | .get k now => exact getCachedDf_inv now c k h
    | .set k v now => exact setCachedDf_inv now c k v h
    | .clear =>
      refine ⟨?_, ?_⟩
      · show (clearCache c).length ≤ CACHE_MAX_SIZE
        simp [clearCache]
      · show ((clearCache c).map Prod.fst).Nodup
        simp [clearCache]

/-- An insertion request: key, value, and the time at which `set` is called. -/
abbrev InsItem (V : Type) := CKey × V × Nat

/-- The cache state holding exactly the given insertions, in order. -/
def toRep {V : Type} (l : List (InsItem V)) : Cache V :=
  l.map (fun it => (it.1, ⟨it.2.1, it.2.2⟩))

/-- Perform a sequence of `set` calls, left to right. -/
def insertAll {V : Type} (items : List (InsItem V)) (c : Cache V) : Cache V :=
  items.foldl (fun c it => setCachedDf it.2.2 c it.1 it.2.1) c

/-- The last `n` elements of a list. -/
def lastN {α : Type} (n : Nat) (l : List α) : List α := l.drop (l.length - n)

theorem foldl_pick_min_eq {V : Type} :
    ∀ (rest : List (CKey × CacheEntry V)) (b : CKey × CacheEntry V),
      (∀ x ∈ rest, b.2.timestamp ≤ x.2.timestamp) →
      rest.foldl (fun best x =>
        if x.2.timestamp < best.2.timestamp then x else best) b = b := by
  intro rest
  induction rest with
  | nil => intro b _; rfl
  | cons x xs ih =>
    intro b hmin
    have hx : ¬ x.2.timestamp < b.2.timestamp :=
      not_lt.mpr (hmin x (List.mem_cons_self x xs))
    simp only [List.foldl_cons, if_neg hx]
    exact ih b (fun y hy => hmin y (List.mem_cons_of_mem x hy))

theorem oldestKey?_of_sorted {V : Type} (e : CKey × CacheEntry V)
    (rest : Cache V)
    (hmin : ∀ x ∈ rest, e.2.timestamp ≤ x.2.timestamp) :
    oldestKey? (e :: rest) = some e.1 := by
  simp only [oldestKey?, Option.some.injEq]
  rw [foldl_pick_min_eq rest e hmin]

theorem keys_toRep {V : Type} (l : List (InsItem V)) :
    (toRep l).map Prod.fst = l.map (fun it => it.1) := by
  simp [toRep, List.map_map]

theorem lookupC_toRep_of_mem {V : Type} :
    ∀ (l : List (InsItem V)) (it : InsItem V),
      (l.map (fun it => it.1)).Nodup → it ∈ l →
      lookupC it.1 (toRep l) = some ⟨it.2.1, it.2.2⟩ := by
  intro l
  induction l with
  | nil => intro it _ h; simp at h
  | cons e rest ih =>
    intro it hnd hmem
    simp only [List.map_cons, List.nodup_cons] at hnd
    rcases List.mem_cons.mp hmem with h1 | h1
    · subst h1
      simp [toRep, lookupC]
    · have hne : e.1 ≠ it.1 := by
        intro hc
        exact hnd.1 (hc ▸ List.mem_map_of_mem (fun it => it.1) h1)
      simp only [toRep, List.map_cons, lookupC, if_neg hne]
      exact ih it hnd.2 h1

theorem insertAll_rep {V : Type} :
    ∀ (items hist : List (InsItem V)),
      (((hist ++ items).map (fun it => it.1)).Nodup) →
      (((hist ++ items).map (fun it => it.2.2)).Sorted (· ≤ ·)) →
      hist.length ≤ CACHE_MAX_SIZE →
      insertAll items (toRep hist) = toRep (lastN CACHE_MAX_SIZE (hist ++ items)) := by
  intro items
  induction items with
  | nil =>
    intro hist _ _ hlen
    simp only [insertAll, List.foldl_nil, List.append_nil, lastN]
    rw [Nat.sub_eq_zero_of_le hlen, List.drop_zero]
  | cons it rest ih =>
    intro hist hnd hsort hlen
    have hkeys_split : it.1 ∉ hist.map (fun x => x.1) := by
      rw [List.map_append] at hnd
      rcases List.nodup_append.mp hnd with ⟨_, _, hdisj⟩
      intro hc
      exact hdisj hc (List.mem_map_of_mem _ (List.mem_cons_self it rest))
    simp only [insertAll, List.foldl_cons]
    by_cases hcap : CACHE_MAX_SIZE ≤ (toRep hist).length
    · -- at capacity: `hist.length = 20`, the head (oldest) entry is evicted
      have hlen20 : hist.length = CACHE_MAX_SIZE := by
        have : (toRep hist).length = hist.length := by simp [toRep]
        omega
      have hne : hist ≠ [] := by
        intro hc
        rw [hc] at hlen20
        simp [CACHE_MAX_SIZE] at hlen20
      obtain ⟨h0, htl, rfl⟩ := List.exists_cons_of_ne_nil hne
      have hsort2 : List.Sorted (· ≤ ·)
          (h0.2.2 :: (htl ++ it :: rest).map (fun x => x.2.2)) := hsort
      have hmin : ∀ x ∈ toRep htl, (h0.2.2 : Nat) ≤ x.2.timestamp := by
        intro x hx
        simp only [toRep, List.mem_map] at hx
        obtain ⟨y, hy, rfl⟩ := hx
        exact (List.pairwise_cons.mp hsort2).1 _
          (List.mem_map_of_mem _ (List.mem_append_left _ hy))
      have hset : setCachedDf it.2.2 (toRep (h0 :: htl)) it.1 it.2.1
          = toRep ((htl ++ [it])) := by
        unfold setCachedDf
        have holdest : oldestKey? (toRep (h0 :: htl)) = some h0.1 := by
          have : toRep (h0 :: htl) = (h0.1, ⟨h0.2.1, h0.2.2⟩) :: toRep htl := rfl
          rw [this]
          exact oldestKey?_of_sorted _ _ hmin
        simp only [if_pos hcap, holdest]
        have herase : eraseKey h0.1 (toRep (h0 :: htl)) = toRep htl := by
          simp [toRep, eraseKey]
        rw [herase]
        have hnotmem : it.1 ∉ (toRep htl).map Prod.fst := by
          rw [keys_toRep]
          intro hc
          exact hkeys_split (by simp [hc])
        rw [dictInsert_of_not_mem _ _ _ hnotmem]
        simp [toRep]
      rw [hset]
      have heq1 : (htl ++ [it]) ++ rest = htl ++ it :: rest := by simp
      have ihs := ih (htl ++ [it]) (by
          rw [heq1]
          have : (h0 :: htl) ++ it :: rest = h0 :: (htl ++ it :: rest) := by simp
          rw [this] at hnd
          simp only [List.map_cons, List.nodup_cons] at hnd
          exact hnd.2)
        (by
          rw [heq1]
          exact (List.pairwise_cons.mp hsort2).2)
        (by
          have h2 : htl.length + 1 = CACHE_MAX_SIZE := by simpa using hlen20
          simp only [List.length_append, List.length_singleton]
          omega)
      simp only [insertAll] at ihs
      rw [ihs, heq1]
      -- `lastN 20 (h0 :: L) = lastN 20 L` because `L` is already long enough
      have hL : (htl ++ it :: rest).length = CACHE_MAX_SIZE + rest.length := by
        have h2 : htl.length + 1 = CACHE_MAX_SIZE := by simpa using hlen20
        simp only [List.length_append, List.length_cons]
        omega
      have : lastN CACHE_MAX_SIZE ((h0 :: htl) ++ it :: rest)
          = lastN CACHE_MAX_SIZE (htl ++ it :: rest) := by
        show lastN CACHE_MAX_SIZE (h0 :: (htl ++ it :: rest))
          = lastN CACHE_MAX_SIZE (htl ++ it :: rest)
        unfold lastN
        rw [List.length_cons, hL]
        have h1 : CACHE_MAX_SIZE + rest.length + 1 - CACHE_MAX_SIZE
            = (CACHE_MAX_SIZE + rest.length - CACHE_MAX_SIZE) + 1 := by omega
        rw [h1, List.drop_succ_cons]
      rw [this]
    · -- below capacity: the new entry is simply appended
      have hset : setCachedDf it.2.2 (toRep hist) it.1 it.2.1
          = toRep (hist ++ [it]) := by
        unfold setCachedDf
        simp only [if_neg hcap]
        have hnotmem : it.1 ∉ (toRep hist).map Prod.fst := by
          rw [keys_toRep]
          exact hkeys_split
        rw [dictInsert_of_not_mem _ _ _ hnotmem]
        simp [toRep]
      rw [hset]
      have heq1 : (hist ++ [it]) ++ rest = hist ++ it :: rest := by simp
      have ihs := ih (hist ++ [it]) (by rw [heq1]; exact hnd)
        (by rw [heq1]; exact hsort)
        (by
          have : (toRep hist).length = hist.length := by simp [toRep]
          simp only [List.length_append, List.length_singleton]
          omega)
      simp only [insertAll] at ihs
      rw [ihs, heq1]

theorem foldl_pick_min_le {V : Type} :
    ∀ (rest : List (CKey × CacheEntry V)) (b : CKey × CacheEntry V),
      (rest.foldl (fun best x =>
          if x.2.timestamp < best.2.timestamp then x else best) b).2.timestamp
        ≤ b.2.timestamp
      ∧ ∀ x ∈ rest,
          (rest.foldl (fun best x =>
            if x.2.timestamp < best.2.timestamp then x else best) b).2.timestamp
          ≤ x.2.timestamp := by
  intro rest
  induction rest with
  | nil => intro b; exact ⟨le_refl _, by intro x h; simp at h⟩
  | cons x xs ih =>
    intro b
    simp only [List.foldl_cons]
    by_cases h : x.2.timestamp < b.2.timestamp
    · rw [if_pos h]
      refine ⟨le_trans (ih x).1 (le_of_lt h), ?_⟩
      intro y hy
      rcases List.mem_cons.mp hy with h1 | h1
      · rw [h1]; exact (ih x).1
      · exact (ih x).2 y h1
    · rw [if_neg h]
      refine ⟨(ih b).1, ?_⟩
      intro y hy
      rcases List.mem_cons.mp hy with h1 | h1
      · rw [h1]; exact le_trans (ih b).1 (not_lt.mp h)
      · exact (ih b).2 y h1

theorem lookupC_of_mem_nodup {V : Type} :
    ∀ (c : Cache V) (p : CKey × CacheEntry V), p ∈ c →
      (c.map Prod.fst).Nodup → lookupC p.1 c = some p.2 := by
  intro c
  induction c with
  | nil => intro p h _; simp at h
  | cons e rest ih =>
    intro p hmem hnd
    simp only [List.map_cons, List.nodup_cons] at hnd
    rcases List.mem_cons.mp hmem with h1 | h1
    · subst h1
      simp [lookupC]
    · have hne : e.1 ≠ p.1 := fun hc =>
        hnd.1 (hc ▸ List.mem_map_of_mem Prod.fst h1)
      simp only [lookupC, if_neg hne]
      exact ih p h1 hnd.2

theorem oldestKey?_spec {V : Type} (c : Cache V) (hne : c ≠ [])
    (hnd : (c.map Prod.fst).Nodup) :
    ∃ ko eo, oldestKey? c = some ko ∧ lookupC ko c = some eo
      ∧ ∀ e ∈ c, eo.timestamp ≤ e.2.timestamp := by
  obtain ⟨e0, rest, rfl⟩ := List.exists_cons_of_ne_nil hne
  refine ⟨_, _, ?_, lookupC_of_mem_nodup _ _ (foldl_pick_mem rest e0) hnd, ?_⟩
  · rfl
  · intro e he
    rcases List.mem_cons.mp he with h1 | h1
    · rw [h1]; exact (foldl_pick_min_le rest e0).1
    · exact (foldl_pick_min_le rest e0).2 e h1

theorem lookupC_dictInsert_ne {V : Type} (k k' : CKey) (v : CacheEntry V)
    (hne : k' ≠ k) :
    ∀ c : Cache V, lookupC k' (dictInsert k v c) = lookupC k' c := by
  intro c
  have hkk : k ≠ k' := fun hc => hne hc.symm
  induction c with
  | nil => simp only [dictInsert, lookupC, if_neg hkk]
  | cons e rest ih =>
    by_cases h : e.1 = k
    · have h3 : e.1 ≠ k' := by rw [h]; exact hkk
      simp only [dictInsert, if_pos h, lookupC, if_neg hkk, if_neg h3]
    · by_cases h2 : e.1 = k'
      · simp only [dictInsert, if_neg h, lookupC, if_pos h2]
      · simp only [dictInsert, if_neg h, lookupC, if_neg h2]
        exact ih

/-- C2. Cache capacity invariant: starting from an empty cache, any sequence
of `get`/`set`/`clear` operations leaves at most 20 entries with pairwise
distinct keys; a sequence of more than 20 `set` calls on distinct keys at
nondecreasing times leaves exactly the cache states of the 20
most-recently-inserted keys (each retrievable within the TTL, the earlier
keys absent); and a `set` on a full cache evicts exactly the single entry
with the oldest stored timestamp before inserting. -/
theorem cache_capacity_invariant {V : Type} (ops : List (CacheOp V))
    (items : List (InsItem V)) (now : Nat)
    (hnd : (items.map (fun it => it.1)).Nodup)
    (hsort : (items.map (fun it => it.2.2)).Sorted (· ≤ ·))
    (_hbig : CACHE_MAX_SIZE < items.length) :
    ((applyOps ops ([] : Cache V)).length ≤ CACHE_MAX_SIZE
      ∧ ((applyOps ops ([] : Cache V)).map Prod.fst).Nodup)
    ∧ insertAll items ([] : Cache V) = toRep (lastN CACHE_MAX_SIZE items)
    ∧ (∀ it ∈ lastN CACHE_MAX_SIZE items, ∀ tq : Nat,
        tq - it.2.2 < CACHE_TTL_SECONDS →
        (getCachedDf tq (insertAll items ([] : Cache V)) it.1).1 = some it.2.1)
    ∧ (∀ it ∈ items.take (items.length - CACHE_MAX_SIZE),
        getCachedDf now (insertAll items ([] : Cache V)) it.1
          = (none, insertAll items ([] : Cache V)))
    ∧ (∀ (c : Cache V) (k : CKey) (v : V) (tset : Nat),
        c.length = CACHE_MAX_SIZE → (c.map Prod.fst).Nodup →
        ∃ ko eo, oldestKey? c = some ko ∧ lookupC ko c = some eo
          ∧ (∀ e ∈ c, eo.timestamp ≤ e.2.timestamp)
          ∧ (ko ≠ k → lookupC ko (setCachedDf tset c k v) = none)
          ∧ (∀ k' : CKey, k' ≠ ko → k' ≠ k →
              lookupC k' (setCachedDf tset c k v) = lookupC k' c)) := by
  have hrep : insertAll items ([] : Cache V)
      = toRep (lastN CACHE_MAX_SIZE items) := by
    have := insertAll_rep items [] (by simpa using hnd) (by simpa using hsort)
      (by simp [CACHE_MAX_SIZE])
    simpa [toRep] using this
  have hnd_drop : ((lastN CACHE_MAX_SIZE items).map (fun it => it.1)).Nodup := by
    unfold lastN
    exact hnd.sublist ((List.drop_sublist _ _).map _)
  refine ⟨?_, hrep, ?_, ?_, ?_⟩
  · exact applyOps_inv ops [] ⟨by simp [CACHE_MAX_SIZE], by simp⟩
  · intro it hit tq htq
    rw [hrep]
    unfold getCachedDf
    rw [lookupC_toRep_of_mem _ it hnd_drop hit]
    simp [htq]
  · intro it hit
    rw [hrep]
    have hnot : it.1 ∉ (lastN CACHE_MAX_SIZE items).map (fun x => x.1) := by
      have hsplit : items.take (items.length - CACHE_MAX_SIZE)
          ++ items.drop (items.length - CACHE_MAX_SIZE) = items :=
        List.take_append_drop _ items
      have hnd2 := hnd
      rw [← hsplit, List.map_append] at hnd2
      rcases List.nodup_append.mp hnd2 with ⟨_, _, hdisj⟩
      intro hc
      exact hdisj (List.mem_map_of_mem _ hit) hc
    unfold getCachedDf
    rw [lookupC_eq_none_of_not_mem _ _ (by rwa [keys_toRep])]
  · intro c k v tset hlen hnd'
    have hne : c ≠ [] := by
      intro hc
      rw [hc] at hlen
      simp [CACHE_MAX_SIZE] at hlen
    obtain ⟨ko, eo, hko, hlook, hmin⟩ := oldestKey?_spec c hne hnd'
    have hcap : CACHE_MAX_SIZE ≤ c.length := le_of_eq hlen.symm
    have hsetform : setCachedDf tset c k v
        = dictInsert k ⟨v, tset⟩ (eraseKey ko c) := by
      unfold setCachedDf
      rw [if_pos hcap, hko]
    refine ⟨ko, eo, hko, hlook, hmin, ?_, ?_⟩
    · intro hkne
      rw [hsetform, lookupC_dictInsert_ne k ko _ hkne]
      exact lookupC_eraseKey_self ko c hnd'
    · intro k' hk1 hk2
      rw [hsetform, lookupC_dictInsert_ne k k' _ hk2]
      exact lookupC_eraseKey_ne ko k' hk1 c

/-- Concrete insertion sequence for the C2 witness: 21 distinct keys at
nondecreasing times. -/
def c2Items : List (InsItem Nat) :=
  (List.range 21).map (fun i => (("d", [i], false, ""), i, i))

/-- Witness for C2 at 21 concrete insertions. -/
theorem cache_capacity_invariant_witness :
    ((applyOps ([] : List (CacheOp Nat)) ([] : Cache Nat)).length
        ≤ CACHE_MAX_SIZE
      ∧ ((applyOps ([] : List (CacheOp Nat))
          ([] : Cache Nat)).map Prod.fst).Nodup)
    ∧ insertAll c2Items ([] : Cache Nat) = toRep (lastN CACHE_MAX_SIZE c2Items)
    ∧ (getCachedDf 25 (insertAll c2Items ([] : Cache Nat))
        ("d", [20], false, "")).1 = some 20
    ∧ getCachedDf 30 (insertAll c2Items ([] : Cache Nat)) ("d", [0], false, "")
      = (none, insertAll c2Items ([] : Cache Nat)) :=
  ⟨(cache_capacity_invariant ([] : List (CacheOp Nat)) c2Items 30
      (by decide) (by decide) (by decide)).1,
   (cache_capacity_invariant ([] : List (CacheOp Nat)) c2Items 30
      (by decide) (by decide) (by decide)).2.1,
   (cache_capacity_invariant ([] : List (CacheOp Nat)) c2Items 30
      (by decide) (by decide) (by decide)).2.2.1
     (("d", [20], false, ""), 20, 20) (by decide) 25 (by decide),
   (cache_capacity_invariant ([] : List (CacheOp Nat)) c2Items 30
      (by decide) (by decide) (by decide)).2.2.2.1
     (("d", [0], false, ""), 0, 0) (by decide)⟩

/-! ### Claim C9: `cache_status` (`src/api.py:268-289`) -/

/-- One row of the `entries` list built by `cache_status`. -/
structure CacheStatusEntry where
  dataset : String
  seasons : List Nat
  include_ngs : Bool
  ngs_stat_type : String
  rows : Nat
  age_seconds : Int
  expires_in_seconds : Int
  deriving DecidableEq, Repr

/-- The dictionary returned by `cache_status`. -/
structure CacheStatusReport where
  cache_size : Nat
  max_size : Nat
  ttl_seconds : Nat
  entries : List CacheStatusEntry
  deriving DecidableEq, Repr

/-- Model of `cache_status` (`src/api.py:268-289`): iterates over every
entry of `_DATASET_CACHE` (with no filtering on expiry), reporting the key
components, row count, `age_seconds = int(now - timestamp)` and
`expires_in_seconds = max(0, TTL - age_seconds)`. A cached dataframe is a
list of rows here, so `len(df)` is the list length. -/
def cache_status (now : Nat) (c : Cache (List (List Nat))) : CacheStatusReport :=
  { cache_size := c.length
    max_size := CACHE_MAX_SIZE
    ttl_seconds := CACHE_TTL_SECONDS
    entries := c.map (fun e =>
      let age : Int := (now : Int) - (e.2.timestamp : Int)
      { dataset := e.1.1
        seasons := e.1.2.1
        include_ngs := e.1.2.2.1
        ngs_stat_type := e.1.2.2.2
        rows := e.2.df.length
        age_seconds := age
        expires_in_seconds := max 0 ((CACHE_TTL_SECONDS : Int) - age) }) }

/-- C9 counterexample: `cache_status` also lists entries whose age has
passed the TTL (they stay in the dictionary until a `get` on their key),
refuting "for every live (non-expired) entry and only for live entries". -/
theorem cache_status_lists_expired_counterexample :
    (cache_status 400
        [(("player_stats", [2024], false, "receiving"),
          ⟨[[1, 2], [3, 4]], 0⟩)]).entries
      = [{ dataset := "player_stats", seasons := [2024], include_ngs := false,
           ngs_stat_type := "receiving", rows := 2, age_seconds := 400,
           expires_in_seconds := 0 }]
    ∧ CACHE_TTL_SECONDS ≤ 400 - 0 := by
  constructor
  · rfl
  · decide

/-- C9 amended: `status()` reports, for every entry currently stored in the
cache dictionary — expired-but-not-yet-evicted entries included — its key
components, row count, age in seconds, and `max(0, TTL - age)` seconds to
expiry, together with the current size, the maximum size 20 and the TTL 300. -/
theorem cache_status_report (now : Nat) (c : Cache (List (List Nat))) :
    (cache_status now c).cache_size = c.length
    ∧ (cache_status now c).max_size = 20
    ∧ (cache_status now c).ttl_seconds = 300
    ∧ (cache_status now c).entries.length = c.length
    ∧ ∀ i : Nat, ∀ h : i < c.length,
        (cache_status now c).entries.get ⟨i, by
            have : (cache_status now c).entries.length = c.length := by
              simp [cache_status]
            omega⟩
          = { dataset := (c.get ⟨i, h⟩).1.1
              seasons := (c.get ⟨i, h⟩).1.2.1
              include_ngs := (c.get ⟨i, h⟩).1.2.2.1
              ngs_stat_type := (c.get ⟨i, h⟩).1.2.2.2
              rows := (c.get ⟨i, h⟩).2.df.length
              age_seconds := (now : Int) - ((c.get ⟨i, h⟩).2.timestamp : Int)
              expires_in_seconds :=
                max 0 (300 - ((now : Int) - ((c.get ⟨i, h⟩).2.timestamp : Int))) } := by
  refine ⟨rfl, rfl, rfl, by simp [cache_status], ?_⟩
  intro i h
  simp [cache_status, CACHE_TTL_SECONDS]

/-- Witness for the amended C9 at a concrete cache state. -/
theorem cache_status_report_witness :
    (cache_status 100
        [(("schedules", [2023], true, "rushing"), ⟨[[9]], 40⟩)]).cache_size = 1
    ∧ (cache_status 100
        [(("schedules", [2023], true, "rushing"), ⟨[[9]], 40⟩)]).entries
      = [{ dataset := "schedules", seasons := [2023], include_ngs := true,
           ngs_stat_type := "rushing", rows := 1, age_seconds := 60,
           expires_in_seconds := 240 }] := by
  have h := cache_status_report 100
    [(("schedules", [2023], true, "rushing"), ⟨[[9]], 40⟩)]
  refine ⟨h.1, ?_⟩
  rfl

/-! ### Claim C8: defensive copies (`df.copy()` on both get and set) -/

/-- A store of mutable Python objects: addresses are allocated in
increasing order, `mem` maps allocated addresses to current contents. -/
structure Store (V : Type) where
  next : Nat
  mem : List (Nat × V)
  deriving DecidableEq, Repr

/-- Dereference an address. -/
def readA {V : Type} (s : Store V) (a : Nat) : Option V :=
  (s.mem.find? (fun x => x.1 == a)).map (fun x => x.2)

/-- In-place mutation of the object at an address (e.g. mutating a
dataframe the caller holds). -/
def writeA {V : Type} (s : Store V) (a : Nat) (v : V) : Store V :=
  { s with mem := s.mem.map (fun x => if x.1 == a then (a, v) else x) }

/-- Allocate a fresh object (`df.copy()` allocates). -/
def alloc {V : Type} (s : Store V) (v : V) : Nat × Store V :=
  (s.next, { next := s.next + 1, mem := (s.next, v) :: s.mem })

/-- `_set_cached_df` at the object level: `df.copy()` duplicates the
argument's contents into a fresh object and the fresh address is stored
(`src/api.py:157`); the dictionary bookkeeping is exactly `setCachedDf`. -/
def hSetCachedDf {V : Type} (now : Nat) (s : Store V) (c : Cache Nat)
    (k : CKey) (a : Nat) : Store V × Cache Nat :=
  match readA s a with
  | some v =>
    let p := alloc s v
    (p.2, setCachedDf now c k p.1)
  | none => (s, c)

/-- `_get_cached_df` at the object level: a live hit returns `df.copy()`,
a fresh object holding the stored contents (`src/api.py:142`). -/
def hGetCachedDf {V : Type} (now : Nat) (s : Store V) (c : Cache Nat)
    (k : CKey) : Option Nat × Store V × Cache Nat :=
  match getCachedDf now c k with
  | (some a, c') =>
    match readA s a with
    | some v =>
      let p := alloc s v
      (some p.1, p.2, c')
    | none => (none, s, c')
  | (none, c') => (none, s, c')

theorem find?_write_ne {V : Type} (a b : Nat) (v : V) (hne : a ≠ b) :
    ∀ l : List (Nat × V),
      (l.map (fun x => if x.1 == b then (b, v) else x)).find?
          (fun x => x.1 == a)
        = l.find? (fun x => x.1 == a) := by
  intro l
  induction l with
  | nil => rfl
  | cons x rest ih =>
    by_cases hx : x.1 = b
    · rw [List.map_cons, if_pos (by simpa using hx)]
      rw [List.find?_cons_of_neg _
          (by simpa using (show b ≠ a from fun hc => hne hc.symm)),
        List.find?_cons_of_neg _
          (by simpa [hx] using (show b ≠ a from fun hc => hne hc.symm))]
      exact ih
    · rw [List.map_cons, if_neg (by simpa using hx)]
      by_cases ha : x.1 = a
      · rw [List.find?_cons_of_pos _ (by simpa using ha),
          List.find?_cons_of_pos _ (by simpa using ha)]
      · rw [List.find?_cons_of_neg _ (by simpa using ha),
          List.find?_cons_of_neg _ (by simpa using ha)]
        exact ih

theorem readA_writeA_ne {V : Type} (s : Store V) (a b : Nat) (v : V)
    (hne : a ≠ b) : readA (writeA s b v) a = readA s a := by
  unfold readA writeA
  simp only
  rw [find?_write_ne a b v hne s.mem]

theorem readA_alloc_self {V : Type} (s : Store V) (v : V) :
    readA (alloc s v).2 s.next = some v := by
  simp [alloc, readA]

theorem readA_alloc_ne {V : Type} (s : Store V) (v : V) (a : Nat)
    (hne : a ≠ s.next) : readA (alloc s v).2 a = readA s a := by
  unfold readA alloc
  simp only
  rw [List.find?_cons_of_neg _ (by simpa using fun hc => hne hc.symm)]

/-- C8. Cache isolation. Copy-on-store: after `set(k, a)` the cache holds a
fresh copy of the object at `a`, so mutating `a` afterwards does not change
the stored contents nor what a later `get(k)` returns. Copy-on-read:
`get(k)` returns a fresh copy, so mutating the returned object does not
change what a second `get(k)` returns. -/
theorem cache_isolation {V : Type} (s : Store V) (c : Cache Nat) (k : CKey)
    (a : Nat) (v d : V) (now now' : Nat)
    (ha : readA s a = some v) (hbound : a < s.next)
    (hfresh : now' - now < CACHE_TTL_SECONDS) :
    ((hSetCachedDf now s c k a).2 = setCachedDf now c k s.next
      ∧ lookupC k (hSetCachedDf now s c k a).2 = some ⟨s.next, now⟩
      ∧ readA (writeA (hSetCachedDf now s c k a).1 a d) s.next = some v
      ∧ (hGetCachedDf now' (writeA (hSetCachedDf now s c k a).1 a d)
          (hSetCachedDf now s c k a).2 k).1 = some (s.next + 1)
      ∧ readA (hGetCachedDf now' (writeA (hSetCachedDf now s c k a).1 a d)
          (hSetCachedDf now s c k a).2 k).2.1 (s.next + 1) = some v)
    ∧ (∀ (a' t : Nat) (v' d' : V) (now2 : Nat),
        lookupC k c = some ⟨a', t⟩ → a' < s.next → readA s a' = some v' →
        now' - t < CACHE_TTL_SECONDS → now2 - t < CACHE_TTL_SECONDS →
          (hGetCachedDf now' s c k).1 = some s.next
          ∧ readA (hGetCachedDf now' s c k).2.1 s.next = some v'
          ∧ (hGetCachedDf now2
              (writeA (hGetCachedDf now' s c k).2.1 s.next d')
              (hGetCachedDf now' s c k).2.2 k).1 = some (s.next + 1)
          ∧ readA (hGetCachedDf now2
              (writeA (hGetCachedDf now' s c k).2.1 s.next d')
              (hGetCachedDf now' s c k).2.2 k).2.1 (s.next + 1) = some v') := by
  have hane : a ≠ s.next := Nat.ne_of_lt hbound
  have hsetpair : hSetCachedDf now s c k a
      = ((alloc s v).2, setCachedDf now c k s.next) := by
    simp only [hSetCachedDf, ha, alloc]
  constructor
  · have hstore1 : readA (writeA (hSetCachedDf now s c k a).1 a d) s.next
        = some v := by
      rw [hsetpair]
      rw [readA_writeA_ne _ _ _ _ (Ne.symm hane)]
      exact readA_alloc_self s v
    have hcache2 : (hSetCachedDf now s c k a).2
        = setCachedDf now c k s.next := by
      rw [hsetpair]
    have hlook2 : lookupC k (hSetCachedDf now s c k a).2
        = some ⟨s.next, now⟩ := by
      rw [hcache2]
      exact lookupC_setCachedDf_self now c k s.next
    have hget : getCachedDf now' (hSetCachedDf now s c k a).2 k
        = (some s.next, (hSetCachedDf now s c k a).2) := by
      unfold getCachedDf
      rw [hlook2]
      simp [hfresh]
    have hnext2 : (writeA (hSetCachedDf now s c k a).1 a d).next
        = s.next + 1 := by
      rw [hsetpair]
      rfl
    have hgetfull : hGetCachedDf now'
        (writeA (hSetCachedDf now s c k a).1 a d)
        (hSetCachedDf now s c k a).2 k
        = (some (s.next + 1),
           (alloc (writeA (hSetCachedDf now s c k a).1 a d) v).2,
           (hSetCachedDf now s c k a).2) := by
      simp only [hGetCachedDf, hget, hstore1, alloc, hnext2]
    refine ⟨hcache2, hlook2, hstore1, ?_, ?_⟩
    · rw [hgetfull]
    · rw [hgetfull]
      show readA (alloc (writeA (hSetCachedDf now s c k a).1 a d) v).2
        (s.next + 1) = some v
      have h2 := readA_alloc_self (writeA (hSetCachedDf now s c k a).1 a d) v
      rw [hnext2] at h2
      exact h2
  · intro a' t v' d' now2 hlook hbound' hread hf1 hf2
    have hget1 : getCachedDf now' c k = (some a', c) := by
      unfold getCachedDf
      rw [hlook]
      simp [hf1]
    have hfirst : hGetCachedDf now' s c k
        = (some s.next, (alloc s v').2, c) := by
      simp only [hGetCachedDf, hget1, hread, alloc]
    have hget2 : getCachedDf now2 c k = (some a', c) := by
      unfold getCachedDf
      rw [hlook]
      simp [hf2]
    have hread2 : readA (writeA (alloc s v').2 s.next d') a' = some v' := by
      rw [readA_writeA_ne _ _ _ _ (Nat.ne_of_lt hbound')]
      rw [readA_alloc_ne s v' a' (Nat.ne_of_lt hbound')]
      exact hread
    have hnextw : (writeA (alloc s v').2 s.next d').next = s.next + 1 := rfl
    have hsecond : hGetCachedDf now2 (writeA (alloc s v').2 s.next d') c k
        = (some (s.next + 1),
           (alloc (writeA (alloc s v').2 s.next d') v').2, c) := by
      simp only [hGetCachedDf, hget2]
      rw [hread2]
      rfl
    refine ⟨?_, ?_, ?_, ?_⟩
    · rw [hfirst]
    · rw [hfirst]
      exact readA_alloc_self s v'
    · rw [hfirst]
      show (hGetCachedDf now2 (writeA (alloc s v').2 s.next d') c k).1
        = some (s.next + 1)
      rw [hsecond]
    · rw [hfirst]
      show readA
        (hGetCachedDf now2 (writeA (alloc s v').2 s.next d') c k).2.1
        (s.next + 1) = some v'
      rw [hsecond]
      show readA (alloc (writeA (alloc s v').2 s.next d') v').2
        (s.next + 1) = some v'
      have h3 := readA_alloc_self (writeA (alloc s v').2 s.next d') v'
      rw [hnextw] at h3
      exact h3

/-- Witness for C8 at a concrete store and cache state. -/
theorem cache_isolation_witness :
    ((hSetCachedDf 50 (⟨1, [(0, 5)]⟩ : Store Nat)
        [(("schedules", [], false, ""), ⟨0, 10⟩)]
        ("player_stats", [], false, "") 0).2
      = setCachedDf 50 [(("schedules", [], false, ""), ⟨0, 10⟩)]
          ("player_stats", [], false, "") 1
      ∧ lookupC ("player_stats", [], false, "")
          (hSetCachedDf 50 (⟨1, [(0, 5)]⟩ : Store Nat)
            [(("schedules", [], false, ""), ⟨0, 10⟩)]
            ("player_stats", [], false, "") 0).2 = some ⟨1, 50⟩
      ∧ readA (writeA (hSetCachedDf 50 (⟨1, [(0, 5)]⟩ : Store Nat)
            [(("schedules", [], false, ""), ⟨0, 10⟩)]
            ("player_stats", [], false, "") 0).1 0 99) 1 = some 5
      ∧ (hGetCachedDf 60 (writeA (hSetCachedDf 50 (⟨1, [(0, 5)]⟩ : Store Nat)
            [(("schedules", [], false, ""), ⟨0, 10⟩)]
            ("player_stats", [], false, "") 0).1 0 99)
          (hSetCachedDf 50 (⟨1, [(0, 5)]⟩ : Store Nat)
            [(("schedules", [], false, ""), ⟨0, 10⟩)]
            ("player_stats", [], false, "") 0).2
          ("player_stats", [], false, "")).1 = some 2
      ∧ readA (hGetCachedDf 60 (writeA (hSetCachedDf 50 (⟨1, [(0, 5)]⟩ : Store Nat)
            [(("schedules", [], false, ""), ⟨0, 10⟩)]
            ("player_stats", [], false, "") 0).1 0 99)
          (hSetCachedDf 50 (⟨1, [(0, 5)]⟩ : Store Nat)
            [(("schedules", [], false, ""), ⟨0, 10⟩)]
            ("player_stats", [], false, "") 0).2
          ("player_stats", [], false, "")).2.1 2 = some 5)
    ∧ ((hGetCachedDf 60 (⟨1, [(0, 5)]⟩ : Store Nat)
          [(("player_stats", [], false, ""), ⟨0, 10⟩)]
          ("player_stats", [], false, "")).1 = some 1
      ∧ readA (hGetCachedDf 60 (⟨1, [(0, 5)]⟩ : Store Nat)
          [(("player_stats", [], false, ""), ⟨0, 10⟩)]
          ("player_stats", [], false, "")).2.1 1 = some 5
      ∧ (hGetCachedDf 70
          (writeA (hGetCachedDf 60 (⟨1, [(0, 5)]⟩ : Store Nat)
            [(("player_stats", [], false, ""), ⟨0, 10⟩)]
            ("player_stats", [], false, "")).2.1 1 99)
          (hGetCachedDf 60 (⟨1, [(0, 5)]⟩ : Store Nat)
            [(("player_stats", [], false, ""), ⟨0, 10⟩)]
            ("player_stats", [], false, "")).2.2
          ("player_stats", [], false, "")).1 = some 2
      ∧ readA (hGetCachedDf 70
          (writeA (hGetCachedDf 60 (⟨1, [(0, 5)]⟩ : Store Nat)
            [(("player_stats", [], false, ""), ⟨0, 10⟩)]
            ("player_stats", [], false, "")).2.1 1 99)
          (hGetCachedDf 60 (⟨1, [(0, 5)]⟩ : Store Nat)
            [(("player_stats", [], false, ""), ⟨0, 10⟩)]
            ("player_stats", [], false, "")).2.2
          ("player_stats", [], false, "")).2.1 2 = some 5) :=
  ⟨(cache_isolation (⟨1, [(0, 5)]⟩ : Store Nat)
      [(("schedules", [], false, ""), ⟨0, 10⟩)] ("player_stats", [], false, "")
      0 5 99 50 60 (by decide) (by decide) (by decide)).1,
   (cache_isolation (⟨1, [(0, 5)]⟩ : Store Nat)
      [(("player_stats", [], false, ""), ⟨0, 10⟩)] ("player_stats", [], false, "")
      0 5 99 50 60 (by decide) (by decide) (by decide)).2
     0 10 5 99 70 rfl (by decide) (by decide) (by decide) (by decide)⟩

/-! ## Incremental loader (`src/airflow/dags/nfl_datamans_dbt_improved.py`) -/

/-- A column name, as the list of its Unicode code points. -/
abbrev Colname : Type := List Nat

/-- A positional row of cell values. -/
abbrev Row : Type := List Nat

/-- A fetched dataframe: column names plus positional rows. -/
structure DF where
  cols : List Colname
  rows : List Row
  deriving DecidableEq, Repr

/-- The ASCII whitespace set stripped by Python `str.strip()`:
space, tab, newline, carriage return, vertical tab, form feed. -/
def isPySpace (n : Nat) : Bool :=
  n == 32 || n == 9 || n == 10 || n == 13 || n == 11 || n == 12

/-- `str.strip()`: drop leading and trailing whitespace. -/
def stripCP (l : List Nat) : List Nat :=
  ((l.dropWhile isPySpace).reverse.dropWhile isPySpace).reverse

/-- `str.lower()` on one ASCII code point. -/
def lowCh (n : Nat) : Nat := if 65 ≤ n ∧ n ≤ 90 then n + 32 else n

/-- `str.lower()` on ASCII letters (column names are ASCII). -/
def lowerCP (l : List Nat) : List Nat := l.map lowCh

/-- `' ' -> '_'` on one code point: 32 becomes 95. -/
def replCh (n : Nat) : Nat := if n == 32 then 95 else n

/-- `str.replace(' ', '_')`. -/
def replaceSpaceCP (l : List Nat) : List Nat := l.map replCh

/-- Column normalization applied by the loader
(`nfl_datamans_dbt_improved.py:105`):
`str(c).strip().lower().replace(' ', '_')`. -/
def normalizeName (c : Colname) : Colname :=
  replaceSpaceCP (lowerCP (stripCP c))

/-- A warehouse table: column list, discovered primary-key column list
(empty when no primary-key constraint exists), and positional rows. -/
structure Table where
  cols : List Colname
  pk : List Colname
  rows : List Row
  deriving DecidableEq, Repr

/-- Warehouse state touched by the loader: the `raw_nfl` schema flag, the
target table `raw_nfl.{dataset}` and the temp table `raw_nfl.{dataset}_temp`. -/
structure WH where
  schemaExists : Bool
  target : Option Table
  temp : Option Table
  deriving DecidableEq, Repr

/-- Position of a column name in a column list (list length when absent). -/
def colIdx (cols : List Colname) (c : Colname) : Nat :=
  cols.findIdx (fun c' => c' == c)

/-- The primary-key tuple of a positional row. -/
def pkVals (cols pk : List Colname) (r : Row) : List Nat :=
  pk.map (fun c => r.getD (colIdx cols c) 0)

/-- The primary-key index positions. -/
def pkIdxs (cols pk : List Colname) : List Nat := pk.map (colIdx cols)

/-- `ON CONFLICT (pk) DO UPDATE SET c = EXCLUDED.c` for every non-key
column: key positions keep the old row's values, every other position
takes the incoming row's value. -/
def updateNonKey (cols pk : List Colname) (old incoming : Row) : Row :=
  (List.range incoming.length).map (fun i =>
    if (pkIdxs cols pk).contains i then old.getD i 0 else incoming.getD i 0)

/-- Upsert a single incoming row: update the (unique, by the primary-key
constraint) conflicting row in place, or append when no row conflicts. -/
def upsert1 (cols pk : List Colname) : List Row → Row → List Row
  | [], r => [r]
  | old :: rest, r =>
    if pkVals cols pk old == pkVals cols pk r
    then updateNonKey cols pk old r :: rest
    else old :: upsert1 cols pk rest r

/-- `INSERT INTO target SELECT * FROM temp ON CONFLICT (pk) DO UPDATE ...`
(`nfl_datamans_dbt_improved.py:182-187`): fold over the incoming rows. -/
def upsertAll (cols pk : List Colname) (existing incoming : List Row) :
    List Row :=
  incoming.foldl (upsert1 cols pk) existing

/-- `df[incremental_key].unique()`: first-occurrence deduplication. -/
def uniqueAux (seen : List Nat) : List Nat → List Nat
  | [] => []
  | x :: xs =>
    if seen.contains x then uniqueAux seen xs
    else x :: uniqueAux (x :: seen) xs

/-- The distinct values of a column, in order of first appearance. -/
def uniqueVals (l : List Nat) : List Nat := uniqueAux [] l

/-- Result dictionary of `load_raw_table_incremental`: the skip path
returns `{"status": "skipped", "reason": ..., "records": 0}`
(`nfl_datamans_dbt_improved.py:102`), the success path
`{"status": "success", "records_loaded": ..., "records_updated": ...}`
(lines 236-241; the `function` field, a pass-through string naming the
adapter function, is omitted). -/
inductive RunResult where
  | skipped (reason : String) (records : Nat)
  | success (records_loaded records_updated : Nat)
  deriving DecidableEq, Repr

/-- Model of one successful attempt of the body of
`load_raw_table_incremental` (`nfl_datamans_dbt_improved.py:96-243`):
empty-fetch skip; column normalization; create-and-load when the target
does not exist; otherwise load a temp table and either upsert on a usable
primary key or delete-by-incremental-key then append, dropping the temp
table. Positional row alignment between the fetched frame and an existing
target is assumed (the SQL raises on mismatched schemas; the theorems
hypothesize matching column lists). -/
def load_raw_table_incremental (df : DF) (incremental_key : Colname)
    (wh : WH) : RunResult × WH :=
  if df.rows.isEmpty then
    (.skipped "empty_dataframe" 0, wh)
  else
    let cols := df.cols.map normalizeName
    let wh1 : WH := { wh with schemaExists := true }
    match wh1.target with
    | none =>
      (.success df.rows.length 0,
       { wh1 with target := some ⟨cols, [], df.rows⟩ })
    | some t =>
      let wh2 : WH := { wh1 with temp := some ⟨cols, [], df.rows⟩ }
      if t.pk ≠ [] ∧ t.pk.all (fun c => cols.contains c) then
        let newRows := upsertAll t.cols t.pk t.rows df.rows
        (.success df.rows.length (newRows.length - t.rows.length),
         { wh2 with target := some { t with rows := newRows }, temp := none })
      else
        let t1 :=
          if cols.contains incremental_key then
            let uvals := uniqueVals (df.rows.map (fun r =>
              r.getD (colIdx cols incremental_key) 0))
            { t with rows := t.rows.filter (fun r =>
                !(uvals.contains (r.getD (colIdx t.cols incremental_key) 0))) }
          else t
        (.success df.rows.length df.rows.length,
         { wh2 with target := some { t1 with rows := t1.rows ++ df.rows },
                    temp := none })

/-! ### Retry combinator (`src/utils/retry.py`) -/

/-- One attempt outcome of a retried body: a normal return, an exception of
one of the retried database-error classes (`OperationalError`,
`InterfaceError`, `DatabaseError` — transient connectivity/operational
failures), or any other exception (not caught by the wrapper). -/
inductive AttemptOutcome (A : Type) where
  | ok (a : A)
  | dbErr (msg : String)
  | otherErr (msg : String)
  deriving DecidableEq, Repr

/-- Observed behaviour of a retried call: the value returned or error
raised, the number of invocations of the wrapped body, and the back-off
delays slept between attempts (in seconds). -/
inductive RetryResult (A : Type) where
  | success (a : A) (calls : Nat) (sleeps : List Nat)
  | raised (msg : String) (calls : Nat) (sleeps : List Nat)
  deriving DecidableEq, Repr

/-- The loop of `retry_with_backoff` (`src/utils/retry.py:41-73`), recursing
on the remaining attempts (`fuel = max_retries - attempt`). The delay
starts at `initial_delay = 1` and doubles (`backoff_factor = 2.0`) after
each sleeping retry; a sleep happens only when `attempt < max_retries - 1`;
only the `dbErr` class is caught, and after the loop the last caught
exception (or a generic failure message) is raised. -/
def retryAux {A : Type} (f : Nat → AttemptOutcome A) (maxRetries : Nat) :
    Nat → Nat → Option String → Nat → List Nat → RetryResult A
  | 0, _, last, calls, sleeps =>
    .raised (last.getD ("Failed after " ++ toString maxRetries ++ " attempts"))
      calls sleeps
  | fuel + 1, delay, _, calls, sleeps =>
    match f (maxRetries - (fuel + 1)) with
    | .ok a => .success a (calls + 1) sleeps
    | .otherErr e => .raised e (calls + 1) sleeps
    | .dbErr e =>
      if 0 < fuel then
        retryAux f maxRetries fuel (delay * 2) (some e) (calls + 1)
          (sleeps ++ [delay])
      else
        retryAux f maxRetries fuel delay (some e) (calls + 1) sleeps

/-- `retry_with_backoff(max_retries=n, initial_delay=1.0, backoff_factor=2.0)`
applied to a body whose behaviour on attempt `i` is `f i`. -/
def retry_with_backoff {A : Type} (maxRetries : Nat)
    (f : Nat → AttemptOutcome A) : RetryResult A :=
  retryAux f maxRetries maxRetries 1 none 0 []

/-- `retry_on_db_error(max_retries=3)` as applied to the loader body at
`nfl_datamans_dbt_improved.py:95`. -/
def retry_on_db_error {A : Type} (f : Nat → AttemptOutcome A) :
    RetryResult A :=
  retry_with_backoff 3 f

/-! ### Claim C5 -/

/-- C5. Retry policy: with the loader's configuration (3 total attempts,
initial delay 1s, back-off factor 2), a body failing transiently on the
first two attempts and succeeding on the third yields success after
exactly 3 invocations (sleeping 1s then 2s between attempts); a body
failing transiently on all attempts raises the last error after exactly 3
invocations; a non-database error propagates after a single invocation
with no retry; a normal return is not retried. -/
theorem retry_policy {A : Type} (f : Nat → AttemptOutcome A) (v : A)
    (e0 e1 e2 efatal : String) :
    (f 0 = .dbErr e0 → f 1 = .dbErr e1 → f 2 = .ok v →
      retry_on_db_error f = .success v 3 [1, 2])
    ∧ (f 0 = .dbErr e0 → f 1 = .dbErr e1 → f 2 = .dbErr e2 →
      retry_on_db_error f = .raised e2 3 [1, 2])
    ∧ (f 0 = .otherErr efatal → retry_on_db_error f = .raised efatal 1 [])
    ∧ (f 0 = .ok v → retry_on_db_error f = .success v 1 []) := by
  have hstep1 : retry_on_db_error f = (match f 0 with
      | .ok a => .success a 1 []
      | .otherErr e => .raised e 1 []
      | .dbErr e => retryAux f 3 2 2 (some e) 1 [1]) := rfl
  have hstep2 : ∀ e : String, retryAux f 3 2 2 (some e) 1 [1] = (match f 1 with
      | .ok a => .success a 2 [1]
      | .otherErr e' => .raised e' 2 [1]
      | .dbErr e' => retryAux f 3 1 4 (some e') 2 [1, 2]) := fun _ => rfl
  have hstep3 : ∀ e : String, retryAux f 3 1 4 (some e) 2 [1, 2] = (match f 2 with
      | .ok a => .success a 3 [1, 2]
      | .otherErr e' => .raised e' 3 [1, 2]
      | .dbErr e' => retryAux f 3 0 4 (some e') 3 [1, 2]) := fun _ => rfl
  have hstep4 : ∀ e : String, retryAux f 3 0 4 (some e) 3 [1, 2]
      = .raised e 3 [1, 2] := fun _ => rfl
  refine ⟨?_, ?_, ?_, ?_⟩
  · intro h0 h1 h2
    rw [hstep1, h0]
    show retryAux f 3 2 2 (some e0) 1 [1] = _
    rw [hstep2, h1]
    show retryAux f 3 1 4 (some e1) 2 [1, 2] = _
    rw [hstep3, h2]
  · intro h0 h1 h2
    rw [hstep1, h0]
    show retryAux f 3 2 2 (some e0) 1 [1] = _
    rw [hstep2, h1]
    show retryAux f 3 1 4 (some e1) 2 [1, 2] = _
    rw [hstep3, h2]
    show retryAux f 3 0 4 (some e2) 3 [1, 2] = _
    rw [hstep4]
  · intro h0
    rw [hstep1, h0]
  · intro h0
    rw [hstep1, h0]

/-- A source that fails transiently twice, then succeeds. -/
def c5Flaky : Nat → AttemptOutcome Nat := fun i =>
  if i < 2 then .dbErr "conn" else .ok 500

/-- A source that always fails transiently. -/
def c5Down : Nat → AttemptOutcome Nat := fun _ => .dbErr "conn"

/-- A body that raises a non-database (data) error. -/
def c5Bad : Nat → AttemptOutcome Nat := fun _ => .otherErr "bad"

/-- A body that returns normally at once. -/
def c5Up : Nat → AttemptOutcome Nat := fun _ => .ok 500

/-- Witness for C5 on the four concrete bodies. -/
theorem retry_policy_witness :
    retry_on_db_error c5Flaky = .success 500 3 [1, 2]
    ∧ retry_on_db_error c5Down = .raised "conn" 3 [1, 2]
    ∧ retry_on_db_error c5Bad = .raised "bad" 1 []
    ∧ retry_on_db_error c5Up = .success 500 1 [] :=
  ⟨(retry_policy c5Flaky 500 "conn" "conn" "conn" "bad").1 rfl rfl rfl,
   (retry_policy c5Down 500 "conn" "conn" "conn" "bad").2.1 rfl rfl rfl,
   (retry_policy c5Bad 500 "conn" "conn" "conn" "bad").2.2.1 rfl,
   (retry_policy c5Up 500 "conn" "conn" "conn" "bad").2.2.2 rfl⟩

/-! ### Claim C6 -/

/-- C6 counterexample: fetched rows missing the designated incremental-key
column are not treated as a data error — the loader takes the
no-primary-key branch, skips the `DELETE`, appends every fetched row and
returns `success`, mutating the target table. Here the target
`raw_nfl.{dataset}` has one column `"a"`, no primary key and one row `[7]`;
the fetched frame has column `"a"` (code points `[97]`), one row `[5]`, and
the incremental key is `"k"` (`[107]`), absent from the fetched columns. -/
theorem loader_missing_column_counterexample :
    load_raw_table_incremental ⟨[[97]], [[5]]⟩ [107]
        ⟨true, some ⟨[[97]], [], [[7]]⟩, none⟩
      = (.success 1 1, ⟨true, some ⟨[[97]], [], [[7], [5]]⟩, none⟩)
    ∧ (some (⟨[[97]], [], [[7], [5]]⟩ : Table)
        ≠ some (⟨[[97]], [], [[7]]⟩ : Table)) := by
  constructor
  · rfl
  · decide

/-- C6 amended: a fetch returning zero rows is not retried, mutates
nothing, and yields `status = "skipped"` with reason `"empty_dataframe"`
and a zero record count; but fetched rows missing the incremental-key
column are not a data error: in the no-primary-key branch, with the
normalized fetched columns matching the target schema (as in C3/C4 — a
mismatched schema raises a database error in `to_sql` instead), the
delete is skipped and all fetched rows are appended with `success`
status. -/
theorem loader_empty_fetch_skip (cols : List Colname) (ik : Colname)
    (wh : WH) :
    load_raw_table_incremental ⟨cols, []⟩ ik wh
      = (.skipped "empty_dataframe" 0, wh)
    ∧ retry_on_db_error
        (fun _ => .ok (load_raw_table_incremental ⟨cols, []⟩ ik wh))
      = .success (load_raw_table_incremental ⟨cols, []⟩ ik wh) 1 []
    ∧ (∀ (df : DF) (t : Table),
        df.rows ≠ [] →
        wh.target = some t →
        df.cols.map normalizeName = t.cols →
        ¬(t.pk ≠ [] ∧ t.pk.all (fun c => t.cols.contains c)) →
        ¬(t.cols.contains ik = true) →
        load_raw_table_incremental df ik wh
          = (.success df.rows.length df.rows.length,
             { wh with schemaExists := true
                       target := some { t with rows := t.rows ++ df.rows }
                       temp := none })) := by
  refine ⟨rfl, rfl, ?_⟩
  intro df t hne htgt hcols hnopk hnoik
  unfold load_raw_table_incremental
  rw [if_neg (by simpa using hne)]
  simp only [htgt, hcols]
  rw [if_neg hnopk]
  simp only [hnoik, if_neg, Bool.false_eq_true, ite_false]

/-- Witness for the amended C6 at concrete inputs: the append instance
uses a fetched frame whose (normalized) column list matches the target's
(`"a"` on both sides) while the incremental key `"k"` is absent. -/
theorem loader_empty_fetch_skip_witness :
    (load_raw_table_incremental ⟨[[97]], []⟩ [107]
        (⟨false, some ⟨[[97]], [], [[7]]⟩, none⟩ : WH)
      = (.skipped "empty_dataframe" 0,
         (⟨false, some ⟨[[97]], [], [[7]]⟩, none⟩ : WH)))
    ∧ retry_on_db_error
        (fun _ => .ok (load_raw_table_incremental ⟨[[97]], []⟩ [107]
          (⟨false, some ⟨[[97]], [], [[7]]⟩, none⟩ : WH)))
      = .success (load_raw_table_incremental ⟨[[97]], []⟩ [107]
          (⟨false, some ⟨[[97]], [], [[7]]⟩, none⟩ : WH)) 1 []
    ∧ load_raw_table_incremental ⟨[[97]], [[5]]⟩ [107]
        (⟨false, some ⟨[[97]], [], [[7]]⟩, none⟩ : WH)
      = (.success 1 1, ⟨true, some ⟨[[97]], [], [[7], [5]]⟩, none⟩) :=
  ⟨(loader_empty_fetch_skip [[97]] [107]
      (⟨false, some ⟨[[97]], [], [[7]]⟩, none⟩ : WH)).1,
   (loader_empty_fetch_skip [[97]] [107]
      (⟨false, some ⟨[[97]], [], [[7]]⟩, none⟩ : WH)).2.1,
   (loader_empty_fetch_skip [[97]] [107]
      (⟨false, some ⟨[[97]], [], [[7]]⟩, none⟩ : WH)).2.2
     ⟨[[97]], [[5]]⟩ ⟨[[97]], [], [[7]]⟩ (by decide) rfl (by decide)
     (by decide) (by decide)⟩

/-! ### Claim C4 -/

theorem mem_uniqueAux (x : Nat) :
    ∀ (l seen : List Nat), x ∈ uniqueAux seen l ↔ (x ∈ l ∧ x ∉ seen) := by
  intro l
  induction l with
  | nil => intro seen; simp [uniqueAux]
  | cons y ys ih =>
    intro seen
    by_cases hy : seen.contains y
    · have hymem : y ∈ seen := List.elem_iff.mp hy
      simp only [uniqueAux, if_pos hy, ih, List.mem_cons]
      constructor
      · rintro ⟨h1, h2⟩
        exact ⟨Or.inr h1, h2⟩
      · rintro ⟨h1 | h1, h2⟩
        · exact absurd (by rw [h1]; exact hymem) h2
        · exact ⟨h1, h2⟩
    · have hynot : y ∉ seen := fun hc => hy (List.elem_eq_true_of_mem hc)
      simp only [uniqueAux, if_neg hy, List.mem_cons, ih]
      constructor
      · rintro (h1 | ⟨h1, h2⟩)
        · exact ⟨Or.inl h1, fun hc => hynot (by rw [← h1]; exact hc)⟩
        · exact ⟨Or.inr h1, fun hc => h2 (Or.inr hc)⟩
      · rintro ⟨h1 | h1, h2⟩
        · exact Or.inl h1
        · by_cases hxy : x = y
          · exact Or.inl hxy
          · refine Or.inr ⟨h1, fun hc => ?_⟩
            rcases hc with h3 | h3
            · exact hxy h3
            · exact h2 h3

theorem contains_uniqueVals (l : List Nat) (x : Nat) :
    (uniqueVals l).contains x = l.contains x := by
  show List.elem x (uniqueVals l) = List.elem x l
  by_cases h : x ∈ l
  · rw [List.elem_eq_true_of_mem h,
      List.elem_eq_true_of_mem
        (show x ∈ uniqueVals l from (mem_uniqueAux x l []).mpr ⟨h, by simp⟩)]
  · have h1 : x ∉ uniqueVals l := fun hc => h ((mem_uniqueAux x l []).mp hc).1
    have e1 : List.elem x (uniqueVals l) = false := by
      rw [← Bool.not_eq_true]
      exact fun hc => h1 (List.elem_iff.mp hc)
    have e2 : List.elem x l = false := by
      rw [← Bool.not_eq_true]
      exact fun hc => h (List.elem_iff.mp hc)
    rw [e1, e2]

/-- C4. Delete-then-append path: when the target exists with no usable
primary key and the fetched rows contain the incremental-key column, `run`
deletes exactly those existing rows whose incremental-key value occurs
among the fetched rows' incremental-key values (equivalently, their
distinct set), appends all fetched rows, leaves other rows untouched, and
returns `records_updated = records_loaded =` the number of fetched rows,
with the temp table dropped. -/
theorem loader_delete_then_append (df : DF) (incremental_key : Colname)
    (wh : WH) (t : Table)
    (htgt : wh.target = some t)
    (hne : df.rows ≠ [])
    (hcols : df.cols.map normalizeName = t.cols)
    (hnopk : ¬(t.pk ≠ [] ∧ t.pk.all (fun c => t.cols.contains c)))
    (hik : t.cols.contains incremental_key = true) :
    load_raw_table_incremental df incremental_key wh
      = (.success df.rows.length df.rows.length,
         { wh with
             schemaExists := true
             target := some ⟨t.cols, t.pk,
               (t.rows.filter (fun r =>
                 !((df.rows.map (fun r' =>
                     r'.getD (colIdx t.cols incremental_key) 0)).contains
                   (r.getD (colIdx t.cols incremental_key) 0)))) ++ df.rows⟩
             temp := none }) := by
  unfold load_raw_table_incremental
  rw [if_neg (by simpa using hne)]
  simp only [htgt, hcols]
  rw [if_neg hnopk, if_pos hik]
  have hfun : (fun r : Row =>
      !((uniqueVals (df.rows.map (fun r' =>
          r'.getD (colIdx t.cols incremental_key) 0))).contains
        (r.getD (colIdx t.cols incremental_key) 0)))
      = (fun r : Row =>
      !((df.rows.map (fun r' =>
          r'.getD (colIdx t.cols incremental_key) 0)).contains
        (r.getD (colIdx t.cols incremental_key) 0))) := by
    funext r
    rw [contains_uniqueVals]
  rw [hfun]

/-- Witness for C4: target with incremental-key column `"s"`, no primary
key, rows for 2023 and 2022; fetch for 2023 and 2024 replaces the 2023 row,
appends 2024, and leaves 2022 untouched. -/
theorem loader_delete_then_append_witness :
    load_raw_table_incremental ⟨[[115]], [[2023], [2024]]⟩ [115]
        ⟨true, some ⟨[[115]], [], [[2023], [2022]]⟩, none⟩
      = (.success 2 2,
         ⟨true, some ⟨[[115]], [], [[2022], [2023], [2024]]⟩, none⟩) :=
  loader_delete_then_append ⟨[[115]], [[2023], [2024]]⟩ [115]
    ⟨true, some ⟨[[115]], [], [[2023], [2022]]⟩, none⟩
    ⟨[[115]], [], [[2023], [2022]]⟩
    rfl (by decide) (by decide) (by decide) (by decide)

/-! ### Claim C10: column-name normalization -/

theorem replCh_lowCh_not_space (n : Nat) (h : isPySpace n = false) :
    isPySpace (replCh (lowCh n)) = false := by
  simp only [isPySpace, Bool.or_eq_false_iff, beq_eq_false_iff_ne, ne_eq] at h ⊢
  have h32 : ¬ n = 32 := by omega
  unfold replCh lowCh
  by_cases h1 : 65 ≤ n ∧ n ≤ 90
  · rw [if_pos h1, if_neg (by simpa using (show ¬ n + 32 = 32 by omega))]
    omega
  · rw [if_neg h1, if_neg (by simpa using h32)]
    omega

theorem replCh_lowCh_idem (n : Nat) :
    replCh (lowCh (replCh (lowCh n))) = replCh (lowCh n) := by
  by_cases h1 : 65 ≤ n ∧ n ≤ 90
  · have e1 : lowCh n = n + 32 := by
      unfold lowCh
      rw [if_pos h1]
    have e2 : replCh (n + 32) = n + 32 := by
      unfold replCh
      rw [if_neg (by simpa using (show ¬ n + 32 = 32 by omega))]
    have e3 : lowCh (n + 32) = n + 32 := by
      unfold lowCh
      rw [if_neg (by omega)]
    rw [e1, e2, e3, e2]
  · have e1 : lowCh n = n := by
      unfold lowCh
      rw [if_neg h1]
    by_cases h2 : n = 32
    · subst h2
      decide
    · have e2 : replCh n = n := by
        unfold replCh
        rw [if_neg (by simpa using h2)]
      rw [e1, e2, e1, e2]

theorem dropWhile_head_false {p : Nat → Bool} :
    ∀ (l : List Nat) (x : Nat) (xs : List Nat),
      l.dropWhile p = x :: xs → p x = false := by
  intro l
  induction l with
  | nil => intro x xs h; simp [List.dropWhile] at h
  | cons y ys ih =>
    intro x xs h
    rw [List.dropWhile_cons] at h
    by_cases hy : p y
    · rw [if_pos hy] at h
      exact ih x xs h
    · rw [if_neg hy] at h
      obtain ⟨h1, h2⟩ := List.cons.injEq y ys x xs ▸ h
      rw [← h1]
      exact Bool.not_eq_true _ ▸ hy

theorem dropWhile_eq_append {p : Nat → Bool} :
    ∀ l : List Nat, ∃ ys, l = ys ++ l.dropWhile p := by
  intro l
  induction l with
  | nil => exact ⟨[], rfl⟩
  | cons y ys ih =>
    rw [List.dropWhile_cons]
    by_cases hy : p y
    · rw [if_pos hy]
      obtain ⟨zs, hz⟩ := ih
      exact ⟨y :: zs, by rw [List.cons_append, ← hz]⟩
    · rw [if_neg hy]
      exact ⟨[], rfl⟩

theorem dropWhile_cons_false {p : Nat → Bool} (x : Nat) (xs : List Nat)
    (h : p x = false) : (x :: xs).dropWhile p = x :: xs := by
  rw [List.dropWhile_cons, if_neg (by simp [h])]

/-- A stripped string is empty or begins with a non-whitespace code point. -/
theorem stripCP_head (l : List Nat) :
    stripCP l = [] ∨ ∃ c cs, stripCP l = c :: cs ∧ isPySpace c = false := by
  unfold stripCP
  rcases hB : ((l.dropWhile isPySpace).reverse.dropWhile isPySpace)
    with _ | ⟨b, bs⟩
  · exact Or.inl rfl
  · right
    obtain ⟨ys, hy⟩ := dropWhile_eq_append (p := isPySpace)
      (l.dropWhile isPySpace).reverse
    rw [hB] at hy
    have hA : l.dropWhile isPySpace = (b :: bs).reverse ++ ys.reverse := by
      rw [← List.reverse_append, ← hy, List.reverse_reverse]
    have hne : (b :: bs).reverse ≠ [] := by simp
    obtain ⟨c, cs, hc⟩ := List.exists_cons_of_ne_nil hne
    refine ⟨c, cs, hc, ?_⟩
    rw [hc] at hA
    exact dropWhile_head_false l c (cs ++ ys.reverse)
      (by rw [hA, List.cons_append])

/-- A stripped string is empty or ends with a non-whitespace code point. -/
theorem stripCP_last (l : List Nat) :
    stripCP l = []
    ∨ ∃ ds d, stripCP l = ds ++ [d] ∧ isPySpace d = false := by
  unfold stripCP
  rcases hB : ((l.dropWhile isPySpace).reverse.dropWhile isPySpace)
    with _ | ⟨b, bs⟩
  · exact Or.inl rfl
  · right
    refine ⟨bs.reverse, b, by simp, ?_⟩
    exact dropWhile_head_false (l.dropWhile isPySpace).reverse b bs hB

/-- A list whose two ends are non-whitespace is unchanged by `strip`. -/
theorem stripCP_eq_self (x : List Nat)
    (hhead : x = [] ∨ ∃ c cs, x = c :: cs ∧ isPySpace c = false)
    (hlast : x = [] ∨ ∃ ds d, x = ds ++ [d] ∧ isPySpace d = false) :
    stripCP x = x := by
  rcases hhead with rfl | ⟨c, cs, rfl, hc⟩
  · rfl
  rcases hlast with h | ⟨ds, d, hd, hpd⟩
  · simp at h
  unfold stripCP
  rw [dropWhile_cons_false c cs hc, hd, List.reverse_append,
    List.reverse_singleton, List.singleton_append,
    dropWhile_cons_false d ds.reverse hpd]
  simp

/-- Mapping a whitespace-freeness-preserving function over a stripped list
yields a list that `strip` leaves unchanged. -/
theorem stripCP_map (f : Nat → Nat)
    (hf : ∀ n, isPySpace n = false → isPySpace (f n) = false)
    (l : List Nat) :
    stripCP ((stripCP l).map f) = (stripCP l).map f := by
  refine stripCP_eq_self _ ?_ ?_
  · rcases stripCP_head l with h | ⟨c, cs, hc, hpc⟩
    · rw [h]
      exact Or.inl rfl
    · right
      exact ⟨f c, cs.map f, by rw [hc]; rfl, hf c hpc⟩
  · rcases stripCP_last l with h | ⟨ds, d, hd, hpd⟩
    · rw [h]
      exact Or.inl rfl
    · right
      refine ⟨ds.map f, f d, ?_, hf d hpd⟩
      rw [hd, List.map_append]
      rfl

/-- Normalization written as one map over the stripped code points. -/
theorem normalizeName_eq_map (c : Colname) :
    normalizeName c = (stripCP c).map (fun n => replCh (lowCh n)) := by
  unfold normalizeName replaceSpaceCP lowerCP
  rw [List.map_map]
  rfl

/-- Normalization is idempotent: normalized names are fixed points. -/
theorem normalizeName_idem (c : Colname) :
    normalizeName (normalizeName c) = normalizeName c := by
  have hs : stripCP (normalizeName c) = normalizeName c := by
    rw [normalizeName_eq_map c]
    exact stripCP_map _ (fun n h => replCh_lowCh_not_space n h) c
  have hfun : ((fun n => replCh (lowCh n)) ∘ (fun n => replCh (lowCh n)))
      = (fun n => replCh (lowCh n)) := by
    funext n
    exact replCh_lowCh_idem n
  rw [normalizeName_eq_map (normalizeName c), hs, normalizeName_eq_map c,
    List.map_map, hfun]

/-- C10. Column-name normalization invariant: normalization (strip,
lowercase, spaces to underscores) is idempotent; the loader's behaviour is
invariant under pre-normalizing the fetched column names (so primary-key
usability and incremental-key presence are decided against the normalized
names in every branch); and on the create-and-load branch the created
target carries exactly the normalized fetched column names, each a fixed
point of normalization. -/
theorem loader_column_normalization (df : DF) (incremental_key : Colname)
    (wh : WH) :
    (∀ c : Colname, normalizeName (normalizeName c) = normalizeName c)
    ∧ load_raw_table_incremental df incremental_key wh
        = load_raw_table_incremental ⟨df.cols.map normalizeName, df.rows⟩
            incremental_key wh
    ∧ (wh.target = none → df.rows ≠ [] →
        (load_raw_table_incremental df incremental_key wh).2.target
          = some ⟨df.cols.map normalizeName, [], df.rows⟩
        ∧ ∀ c ∈ df.cols.map normalizeName, normalizeName c = c) := by
  have hmm : (df.cols.map normalizeName).map normalizeName
      = df.cols.map normalizeName := by
    rw [List.map_map]
    have h2 : normalizeName ∘ normalizeName = normalizeName := by
      funext c
      exact normalizeName_idem c
    rw [h2]
  refine ⟨normalizeName_idem, ?_, ?_⟩
  · simp only [load_raw_table_incremental, hmm]
  · intro htgt hne
    constructor
    · unfold load_raw_table_incremental
      rw [if_neg (by simpa using hne)]
      simp [htgt]
    · intro c hc
      obtain ⟨c0, _, rfl⟩ := List.mem_map.mp hc
      exact normalizeName_idem c0

/-- Witness for C10 at a concrete frame: column `" Player ID "` (with
spaces and capitals) normalizes to `"player_id"`. -/
theorem loader_column_normalization_witness :
    normalizeName (normalizeName [32, 80, 108, 97, 121, 101, 114, 32, 73, 68, 32])
      = normalizeName [32, 80, 108, 97, 121, 101, 114, 32, 73, 68, 32]
    ∧ load_raw_table_incremental
        ⟨[[32, 80, 108, 97, 121, 101, 114, 32, 73, 68, 32]], [[3]]⟩ [115]
        ⟨false, none, none⟩
      = load_raw_table_incremental
        ⟨[[32, 80, 108, 97, 121, 101, 114, 32, 73, 68, 32]].map normalizeName,
          [[3]]⟩ [115] ⟨false, none, none⟩
    ∧ (load_raw_table_incremental
        ⟨[[32, 80, 108, 97, 121, 101, 114, 32, 73, 68, 32]], [[3]]⟩ [115]
        ⟨false, none, none⟩).2.target
      = some ⟨[[112, 108, 97, 121, 101, 114, 95, 105, 100]], [], [[3]]⟩ :=
  ⟨(loader_column_normalization
      ⟨[[32, 80, 108, 97, 121, 101, 114, 32, 73, 68, 32]], [[3]]⟩ [115]
      ⟨false, none, none⟩).1 _,
   (loader_column_normalization
      ⟨[[32, 80, 108, 97, 121, 101, 114, 32, 73, 68, 32]], [[3]]⟩ [115]
      ⟨false, none, none⟩).2.1,
   by
    have h := ((loader_column_normalization
        ⟨[[32, 80, 108, 97, 121, 101, 114, 32, 73, 68, 32]], [[3]]⟩ [115]
        ⟨false, none, none⟩).2.2 rfl (by decide)).1
    rw [h]
    decide⟩

/-! ### Claim C3: upsert path -/

theorem map_eq_map_pointwise {α β : Type} (l : List α) (f g : α → β)
    (h : l.map f = l.map g) : ∀ a ∈ l, f a = g a := by
  induction l with
  | nil => intro a ha; simp at ha
  | cons x xs ih =>
    intro a ha
    simp only [List.map_cons, List.cons.injEq] at h
    rcases List.mem_cons.mp ha with h1 | h1
    · rw [h1]
      exact h.1
    · exact ih h.2 a h1

/-- A conflicting update writes back exactly the incoming row: key
positions carry the (equal) key values, the rest the incoming values. -/
theorem updateNonKey_eq (cols pk : List Colname) (old r : Row)
    (hpk : pkVals cols pk old = pkVals cols pk r) :
    updateNonKey cols pk old r = r := by
  have hpoint : ∀ c ∈ pk, old.getD (colIdx cols c) 0 = r.getD (colIdx cols c) 0 :=
    map_eq_map_pointwise pk _ _ hpk
  apply List.ext_getElem
  · simp [updateNonKey]
  · intro i h1 h2
    simp only [updateNonKey, List.getElem_map, List.getElem_range]
    by_cases hm : (pkIdxs cols pk).contains i
    · rw [if_pos hm]
      have hmem : i ∈ pkIdxs cols pk := List.elem_iff.mp hm
      obtain ⟨c, hc, hceq⟩ := List.mem_map.mp hmem
      have hpt := hpoint c hc
      rw [hceq] at hpt
      rw [hpt]
      exact List.getD_eq_getElem r 0 h2
    · rw [if_neg hm]
      exact List.getD_eq_getElem r 0 h2

theorem upsert1_not_mem (cols pk : List Colname) :
    ∀ (E : List Row) (r : Row),
      pkVals cols pk r ∉ E.map (pkVals cols pk) →
      upsert1 cols pk E r = E ++ [r] := by
  intro E
  induction E with
  | nil => intro r _; rfl
  | cons old rest ih =>
    intro r hr
    simp only [List.map_cons, List.mem_cons, not_or] at hr
    have hne : (pkVals cols pk old == pkVals cols pk r) = false := by
      rw [beq_eq_false_iff_ne]
      exact fun hc => hr.1 hc.symm
    simp only [upsert1, hne, Bool.false_eq_true, if_false, List.cons_append]
    rw [ih r hr.2]

theorem upsert1_mem_decomp (cols pk : List Colname) :
    ∀ (E : List Row) (r : Row),
      pkVals cols pk r ∈ E.map (pkVals cols pk) →
      ∃ E₁ old E₂,
        E = E₁ ++ old :: E₂
        ∧ pkVals cols pk old = pkVals cols pk r
        ∧ (∀ x ∈ E₁, pkVals cols pk x ≠ pkVals cols pk r)
        ∧ upsert1 cols pk E r = E₁ ++ updateNonKey cols pk old r :: E₂ := by
  intro E
  induction E with
  | nil => intro r hr; simp at hr
  | cons y ys ih =>
    intro r hr
    by_cases hy : pkVals cols pk y = pkVals cols pk r
    · refine ⟨[], y, ys, rfl, hy, by simp, ?_⟩
      simp only [upsert1, List.nil_append]
      rw [if_pos (beq_iff_eq.mpr hy)]
    · have hmem : pkVals cols pk r ∈ ys.map (pkVals cols pk) := by
        simp only [List.map_cons, List.mem_cons] at hr
        rcases hr with h1 | h1
        · exact absurd h1.symm hy
        · exact h1
      obtain ⟨E₁, old, E₂, he, hpk, hne, hup⟩ := ih r hmem
      refine ⟨y :: E₁, old, E₂, by rw [he]; rfl, hpk, ?_, ?_⟩
      · intro x hx
        rcases List.mem_cons.mp hx with h1 | h1
        · rw [h1]
          exact hy
        · exact hne x h1
      · have hne2 : (pkVals cols pk y == pkVals cols pk r) = false :=
          beq_eq_false_iff_ne.mpr hy
        simp only [upsert1, hne2, Bool.false_eq_true, if_false,
          List.cons_append]
        rw [hup]

theorem find?_append_first {α : Type} (p : α → Bool) :
    ∀ (X : List α) (a : α) (Y : List α),
      (∀ x ∈ X, p x = false) → p a = true →
      (X ++ a :: Y).find? p = some a := by
  intro X
  induction X with
  | nil =>
    intro a Y _ ha
    rw [List.nil_append, List.find?_cons_of_pos _ ha]
  | cons x xs ih =>
    intro a Y hX ha
    rw [List.cons_append, List.find?_cons_of_neg _ (by
      rw [hX x (List.mem_cons_self x xs)]
      exact Bool.false_ne_true)]
    exact ih a Y (fun y hy => hX y (List.mem_cons_of_mem x hy)) ha

theorem find?_append_congr {α : Type} (p : α → Bool) :
    ∀ (X : List α) (a b : α) (Y : List α),
      p a = false → p b = false →
      (X ++ a :: Y).find? p = (X ++ b :: Y).find? p := by
  intro X
  induction X with
  | nil =>
    intro a b Y ha hb
    rw [List.nil_append, List.nil_append,
      List.find?_cons_of_neg _ (by rw [ha]; exact Bool.false_ne_true),
      List.find?_cons_of_neg _ (by rw [hb]; exact Bool.false_ne_true)]
  | cons x xs ih =>
    intro a b Y ha hb
    by_cases hx : p x
    · rw [List.cons_append, List.cons_append,
        List.find?_cons_of_pos _ hx, List.find?_cons_of_pos _ hx]
    · rw [List.cons_append, List.cons_append,
        List.find?_cons_of_neg _ hx, List.find?_cons_of_neg _ hx]
      exact ih a b Y ha hb

theorem find?_append_singleton {α : Type} (p : α → Bool) :
    ∀ (X : List α) (b : α), p b = false →
      (X ++ [b]).find? p = X.find? p := by
  intro X
  induction X with
  | nil =>
    intro b hb
    rw [List.nil_append,
      List.find?_cons_of_neg _ (by rw [hb]; exact Bool.false_ne_true)]
  | cons x xs ih =>
    intro b hb
    by_cases hx : p x
    · rw [List.cons_append, List.find?_cons_of_pos _ hx,
        List.find?_cons_of_pos _ hx]
    · rw [List.cons_append, List.find?_cons_of_neg _ hx,
        List.find?_cons_of_neg _ hx]
      exact ih b hb

theorem contains_append_singleton_ne (A : List (List Nat)) (k x : List Nat)
    (h : x ≠ k) : (A ++ [k]).contains x = A.contains x := by
  show List.elem x (A ++ [k]) = List.elem x A
  by_cases hm : x ∈ A
  · rw [List.elem_eq_true_of_mem hm,
      List.elem_eq_true_of_mem (List.mem_append_left _ hm)]
  · have h1 : x ∉ A ++ [k] := by
      intro hc
      rcases List.mem_append.mp hc with h2 | h2
      · exact hm h2
      · exact h (List.mem_singleton.mp h2)
    have e1 : List.elem x (A ++ [k]) = false := by
      rw [← Bool.not_eq_true]
      exact fun hc => h1 (List.elem_iff.mp hc)
    have e2 : List.elem x A = false := by
      rw [← Bool.not_eq_true]
      exact fun hc => hm (List.elem_iff.mp hc)
    exact e1.trans e2.symm

theorem length_filter_not {α : Type} (p : α → Bool) (l : List α) :
    (l.filter (fun x => !(p x))).length = l.length - (l.filter p).length := by
  induction l with
  | nil => rfl
  | cons x xs ih =>
    have hle := List.length_filter_le p xs
    by_cases hx : p x
    · rw [List.filter_cons_of_pos hx,
        List.filter_cons_of_neg (by rw [hx]; decide)]
      simp only [List.length_cons, ih]
      omega
    · rw [List.filter_cons_of_neg hx,
        List.filter_cons_of_pos (by
          rw [Bool.not_eq_true] at hx
          rw [hx]
          rfl)]
      simp only [List.length_cons, ih]
      omega

/-- Behaviour of the upsert over a whole incoming batch: the final key
list is the existing key list followed by the fresh incoming keys; keys
stay pairwise distinct; every incoming row is afterwards the row found
under its key; rows under keys not incoming are looked up unchanged. -/
theorem upsertAll_spec (cols pk : List Colname) :
    ∀ (I E : List Row),
      (E.map (pkVals cols pk)).Nodup →
      (I.map (pkVals cols pk)).Nodup →
      ((upsertAll cols pk E I).map (pkVals cols pk)
          = E.map (pkVals cols pk)
            ++ (I.filter (fun r =>
                !((E.map (pkVals cols pk)).contains
                  (pkVals cols pk r)))).map (pkVals cols pk))
      ∧ ((upsertAll cols pk E I).map (pkVals cols pk)).Nodup
      ∧ (∀ r ∈ I, (upsertAll cols pk E I).find?
            (fun x => pkVals cols pk x == pkVals cols pk r) = some r)
      ∧ (∀ q : List Nat, q ∉ I.map (pkVals cols pk) →
          (upsertAll cols pk E I).find? (fun x => pkVals cols pk x == q)
            = E.find? (fun x => pkVals cols pk x == q)) := by
  intro I
  induction I with
  | nil =>
    intro E hndE _
    refine ⟨by simp [upsertAll], by simpa [upsertAll] using hndE, ?_, ?_⟩
    · intro r hr
      simp at hr
    · intro q _
      rfl
  | cons r I' ih =>
    intro E hndE hndI
    simp only [List.map_cons, List.nodup_cons] at hndI
    have hupsAll : upsertAll cols pk E (r :: I')
        = upsertAll cols pk (upsert1 cols pk E r) I' := rfl
    by_cases hmem : pkVals cols pk r ∈ E.map (pkVals cols pk)
    · obtain ⟨E₁, old, E₂, he, hpko, hE₁, hup⟩ :=
        upsert1_mem_decomp cols pk E r hmem
      have hupd : updateNonKey cols pk old r = r :=
        updateNonKey_eq cols pk old r hpko
      rw [hupd] at hup
      have hkeys : (upsert1 cols pk E r).map (pkVals cols pk)
          = E.map (pkVals cols pk) := by
        rw [hup, he]
        simp only [List.map_append, List.map_cons]
        rw [hpko]
      have hndE' : ((upsert1 cols pk E r).map (pkVals cols pk)).Nodup := by
        rw [hkeys]
        exact hndE
      obtain ⟨ih1, ih2, ih3, ih4⟩ := ih (upsert1 cols pk E r) hndE' hndI.2
      refine ⟨?_, ?_, ?_, ?_⟩
      · rw [hupsAll, ih1, hkeys]
        have hcont : ((E.map (pkVals cols pk)).contains (pkVals cols pk r))
            = true := List.elem_eq_true_of_mem hmem
        rw [List.filter_cons]
        simp only [hcont, Bool.not_true, Bool.false_eq_true, if_false]
      · rw [hupsAll]
        exact ih2
      · intro x hx
        rcases List.mem_cons.mp hx with h1 | h1
        · subst h1
          rw [hupsAll, ih4 _ hndI.1, hup]
          exact find?_append_first _ E₁ x E₂
            (fun y hy => beq_eq_false_iff_ne.mpr (hE₁ y hy))
            (beq_self_eq_true _)
        · rw [hupsAll]
          exact ih3 x h1
      · intro q hq
        simp only [List.map_cons, List.mem_cons, not_or] at hq
        rw [hupsAll, ih4 q hq.2, hup, he]
        refine find?_append_congr _ E₁ r old E₂ ?_ ?_
        · rw [beq_eq_false_iff_ne]
          exact fun hc => hq.1 hc.symm
        · rw [beq_eq_false_iff_ne, hpko]
          exact fun hc => hq.1 hc.symm
    · have hap : upsert1 cols pk E r = E ++ [r] :=
        upsert1_not_mem cols pk E r hmem
      have hkeys : (upsert1 cols pk E r).map (pkVals cols pk)
          = E.map (pkVals cols pk) ++ [pkVals cols pk r] := by
        rw [hap]
        simp
      have hndE' : ((upsert1 cols pk E r).map (pkVals cols pk)).Nodup := by
        rw [hkeys, List.nodup_append]
        refine ⟨hndE, List.nodup_singleton _, ?_⟩
        intro a ha hb
        rw [List.mem_singleton.mp hb] at ha
        exact hmem ha
      obtain ⟨ih1, ih2, ih3, ih4⟩ := ih (upsert1 cols pk E r) hndE' hndI.2
      refine ⟨?_, ?_, ?_, ?_⟩
      · rw [hupsAll, ih1, hkeys]
        have hcont : ((E.map (pkVals cols pk)).contains (pkVals cols pk r))
            = false := by
          rw [← Bool.not_eq_true]
          exact fun hc => hmem (List.elem_iff.mp hc)
        rw [List.filter_cons]
        simp only [hcont, Bool.not_false, if_true]
        have hfil : I'.filter (fun x =>
            !((E.map (pkVals cols pk) ++ [pkVals cols pk r]).contains
              (pkVals cols pk x)))
            = I'.filter (fun x =>
            !((E.map (pkVals cols pk)).contains (pkVals cols pk x))) := by
          apply List.filter_congr
          intro x hx
          rw [contains_append_singleton_ne _ _ _ (fun hc =>
            hndI.1 (by rw [← hc]; exact List.mem_map_of_mem _ hx))]
        rw [hfil, List.append_assoc, List.singleton_append, List.map_cons]
      · rw [hupsAll]
        exact ih2
      · intro x hx
        rcases List.mem_cons.mp hx with h1 | h1
        · subst h1
          rw [hupsAll, ih4 _ hndI.1, hap]
          exact find?_append_first _ E x []
            (fun y hy => beq_eq_false_iff_ne.mpr (fun hc =>
              hmem (by rw [← hc]; exact List.mem_map_of_mem _ hy)))
            (beq_self_eq_true _)
        · rw [hupsAll]
          exact ih3 x h1
      · intro q hq
        simp only [List.map_cons, List.mem_cons, not_or] at hq
        rw [hupsAll, ih4 q hq.2, hap]
        exact find?_append_singleton _ E r (by
          rw [beq_eq_false_iff_ne]
          exact fun hc => hq.1 hc.symm)

/-- C3. Upsert path: when the target exists with a non-empty discoverable
primary key whose columns all occur among the (normalized) fetched
columns, `run` upserts: with `M` existing rows, `K` fetched rows of which
`J` share a primary-key value with existing rows (fetched and existing key
tuples each pairwise distinct), the table ends with `M + (K - J)` rows,
`records_loaded = K`, `records_updated` — computed as the net change in
row count — equals `K - J`, every fetched row is the row found under its
key afterwards (so shared-key rows carry the fetched non-key values), and
the temp table is dropped. -/
theorem loader_upsert (df : DF) (incremental_key : Colname) (wh : WH)
    (t : Table)
    (htgt : wh.target = some t)
    (hne : df.rows ≠ [])
    (hcols : df.cols.map normalizeName = t.cols)
    (hpk_ne : t.pk ≠ [])
    (hpk_sub : t.pk.all (fun c => t.cols.contains c) = true)
    (hndE : (t.rows.map (pkVals t.cols t.pk)).Nodup)
    (hndI : (df.rows.map (pkVals t.cols t.pk)).Nodup) :
    load_raw_table_incremental df incremental_key wh
      = (.success df.rows.length
          ((upsertAll t.cols t.pk t.rows df.rows).length - t.rows.length),
         { wh with
             schemaExists := true
             target := some ⟨t.cols, t.pk, upsertAll t.cols t.pk t.rows df.rows⟩
             temp := none })
    ∧ (upsertAll t.cols t.pk t.rows df.rows).length
        = t.rows.length
          + (df.rows.length
             - (df.rows.filter (fun r =>
                 (t.rows.map (pkVals t.cols t.pk)).contains
                   (pkVals t.cols t.pk r))).length)
    ∧ (upsertAll t.cols t.pk t.rows df.rows).length - t.rows.length
        = df.rows.length
          - (df.rows.filter (fun r =>
              (t.rows.map (pkVals t.cols t.pk)).contains
                (pkVals t.cols t.pk r))).length
    ∧ ∀ r ∈ df.rows,
        (upsertAll t.cols t.pk t.rows df.rows).find?
          (fun x => pkVals t.cols t.pk x == pkVals t.cols t.pk r) = some r := by
  obtain ⟨s1, s2, s3, s4⟩ :=
    upsertAll_spec t.cols t.pk df.rows t.rows hndE hndI
  have hlen : (upsertAll t.cols t.pk t.rows df.rows).length
      = t.rows.length + (df.rows.filter (fun r =>
          !((t.rows.map (pkVals t.cols t.pk)).contains
            (pkVals t.cols t.pk r)))).length := by
    have h := congrArg List.length s1
    simpa using h
  have hfn := length_filter_not (fun r =>
      (t.rows.map (pkVals t.cols t.pk)).contains (pkVals t.cols t.pk r))
    df.rows
  have hJle : (df.rows.filter (fun r =>
      (t.rows.map (pkVals t.cols t.pk)).contains
        (pkVals t.cols t.pk r))).length ≤ df.rows.length :=
    List.length_filter_le _ _
  refine ⟨?_, by omega, by omega, s3⟩
  unfold load_raw_table_incremental
  rw [if_neg (by simpa using hne)]
  simp only [htgt, hcols]
  rw [if_pos ⟨hpk_ne, hpk_sub⟩]

/-- Witness for C3: a table with columns `"k", "v"`, primary key `"k"` and
two existing rows, upserted with two fetched rows of which one shares a
key: the shared-key row is overwritten, the fresh row appended. -/
theorem loader_upsert_witness :
    load_raw_table_incremental ⟨[[107], [118]], [[2, 99], [3, 30]]⟩ [115]
        ⟨true, some ⟨[[107], [118]], [[107]], [[1, 10], [2, 20]]⟩, none⟩
      = (.success 2 1,
         ⟨true, some ⟨[[107], [118]], [[107]],
           [[1, 10], [2, 99], [3, 30]]⟩, none⟩)
    ∧ (upsertAll [[107], [118]] [[107]] [[1, 10], [2, 20]]
        [[2, 99], [3, 30]]).length = 3
    ∧ (upsertAll [[107], [118]] [[107]] [[1, 10], [2, 20]]
        [[2, 99], [3, 30]]).find?
        (fun x => pkVals [[107], [118]] [[107]] x
          == pkVals [[107], [118]] [[107]] [2, 99]) = some [2, 99] :=
  ⟨(loader_upsert ⟨[[107], [118]], [[2, 99], [3, 30]]⟩ [115]
      ⟨true, some ⟨[[107], [118]], [[107]], [[1, 10], [2, 20]]⟩, none⟩
      ⟨[[107], [118]], [[107]], [[1, 10], [2, 20]]⟩
      rfl (by decide) (by decide) (by decide) (by decide) (by decide)
      (by decide)).1,
   (loader_upsert ⟨[[107], [118]], [[2, 99], [3, 30]]⟩ [115]
      ⟨true, some ⟨[[107], [118]], [[107]], [[1, 10], [2, 20]]⟩, none⟩
      ⟨[[107], [118]], [[107]], [[1, 10], [2, 20]]⟩
      rfl (by decide) (by decide) (by decide) (by decide) (by decide)
      (by decide)).2.1,
   (loader_upsert ⟨[[107], [118]], [[2, 99], [3, 30]]⟩ [115]
      ⟨true, some ⟨[[107], [118]], [[107]], [[1, 10], [2, 20]]⟩, none⟩
      ⟨[[107], [118]], [[107]], [[1, 10], [2, 20]]⟩
      rfl (by decide) (by decide) (by decide) (by decide) (by decide)
      (by decide)).2.2.2 [2, 99] (by decide)⟩
